import Mathlib

/-!
# Verification of `dso-url-parameter-redactor`

This file gives a shallow embedding of the program `src/main.py` (a URL
parameter redactor) and settles the claims of its specification against it.

The program's core is:

* `redact_url_parameters(url, params_to_redact, redaction_string)` — a thin
  composition of CPython 3.11 `urllib.parse` functions
  (`urlparse`, `parse_qs`, `urlencode(doseq=True)`, `urlunparse`), with a
  catch-all `except` returning the original string; and
* `process_line(line, ...)` — a `re.sub` over a verbose regex that locates
  URL-shaped substrings and replaces each with its redaction.

Strings are embedded as `List Char` (`Str` below).  The `urllib.parse`
functions are translated from the CPython 3.11 sources, including
percent-encoding (via UTF-8 bytes, bytes as `Nat < 256`).  The regex is
hand-compiled into a backtracking matcher with Python `re` semantics
(greedy quantifiers with backtracking, alternation in order, `\b` word
boundaries, leftmost non-overlapping scan for `sub`).  Bounded recursions
use an explicit fuel argument so that every definition is structural and
kernel-computable; fuel is always supplied large enough to be irrelevant,
and the lemmas below are proved for arbitrary fuel where it matters.

Two deliberate abstractions, each noted at its definition:
`unicodedata.normalize('NFKC', ·)` inside `_checknetloc` is modelled as the
identity (faithful for all netlocs stable under NFKC; the check then never
fires), and the regex word-character class `\w` is modelled as ASCII
alphanumeric plus underscore (Python's is Unicode-wide; faithful for ASCII
input).
-/

set_option maxHeartbeats 1000000

abbrev Str := List Char

/-! ## ASCII character helpers -/

def isAsciiUpper (c : Char) : Bool := 'A' ≤ c && c ≤ 'Z'

def isAsciiLower (c : Char) : Bool := 'a' ≤ c && c ≤ 'z'

def isAsciiAlpha (c : Char) : Bool := isAsciiUpper c || isAsciiLower c

def isAsciiDigit (c : Char) : Bool := '0' ≤ c && c ≤ '9'

def isHexDigitChar (c : Char) : Bool :=
  isAsciiDigit c || ('a' ≤ c && c ≤ 'f') || ('A' ≤ c && c ≤ 'F')

/-- ASCII lower-casing, as `str.lower()` acts on ASCII letters. -/
def asciiLower (c : Char) : Char :=
  if isAsciiUpper c then Char.ofNat (c.toNat + 32) else c

/-- Value of a hexadecimal digit character (both cases), `none` otherwise. -/
def hexVal (c : Char) : Option Nat :=
  if isAsciiDigit c then some (c.toNat - 48)
  else if 'a' ≤ c && c ≤ 'f' then some (c.toNat - 87)
  else if 'A' ≤ c && c ≤ 'F' then some (c.toNat - 55)
  else none

/-- Upper-case hexadecimal digit for a value `< 16` (as `'%{:02X}'.format`). -/
def hexUpper (n : Nat) : Char := "0123456789ABCDEF".toList.getD n '0'

/-! ## UTF-8 encoding and decoding

`str.encode('utf-8')` and `bytes.decode('utf-8', errors='replace')`.
The decoder follows the WHATWG algorithm CPython implements: one U+FFFD per
maximal invalid subpart, restarting at the offending byte. -/

def utf8EncodeChar (c : Char) : List Nat :=
  let n := c.toNat
  if n < 128 then [n]
  else if n < 2048 then [192 + n / 64, 128 + n % 64]
  else if n < 65536 then [224 + n / 4096, 128 + n / 64 % 64, 128 + n % 64]
  else [240 + n / 262144, 128 + n / 4096 % 64, 128 + n / 64 % 64, 128 + n % 64]

def utf8Encode (s : Str) : List Nat := (s.map utf8EncodeChar).flatten

def contByte (b : Nat) : Bool := 128 ≤ b && b ≤ 191

/-- Valid range of the first continuation byte, which depends on the lead
byte (excluding overlong forms, surrogates, and values above U+10FFFF). -/
def cont1Ok (lead b : Nat) : Bool :=
  if lead = 224 then 160 ≤ b && b ≤ 191
  else if lead = 237 then 128 ≤ b && b ≤ 159
  else if lead = 240 then 144 ≤ b && b ≤ 191
  else if lead = 244 then 128 ≤ b && b ≤ 143
  else contByte b

def replChar : Char := Char.ofNat 65533

def utf8Decode : List Nat → Str
  | [] => []
  | b :: bs =>
    if b < 128 then Char.ofNat b :: utf8Decode bs
    else if b < 194 then replChar :: utf8Decode bs
    else if b < 224 then
      match bs with
      | [] => [replChar]
      | b1 :: bs1 =>
        if contByte b1 then Char.ofNat ((b - 192) * 64 + (b1 - 128)) :: utf8Decode bs1
        else replChar :: utf8Decode (b1 :: bs1)
    else if b < 240 then
      match bs with
      | [] => [replChar]
      | b1 :: bs1 =>
        if cont1Ok b b1 then
          match bs1 with
          | [] => [replChar]
          | b2 :: bs2 =>
            if contByte b2 then
              Char.ofNat ((b - 224) * 4096 + (b1 - 128) * 64 + (b2 - 128)) :: utf8Decode bs2
            else replChar :: utf8Decode (b2 :: bs2)
        else replChar :: utf8Decode (b1 :: bs1)
    else if b < 245 then
      match bs with
      | [] => [replChar]
      | b1 :: bs1 =>
        if cont1Ok b b1 then
          match bs1 with
          | [] => [replChar]
          | b2 :: bs2 =>
            if contByte b2 then
              match bs2 with
              | [] => [replChar]
              | b3 :: bs3 =>
                if contByte b3 then
                  Char.ofNat ((b - 240) * 262144 + (b1 - 128) * 4096 +
                    (b2 - 128) * 64 + (b3 - 128)) :: utf8Decode bs3
                else replChar :: utf8Decode (b3 :: bs3)
            else replChar :: utf8Decode (b2 :: bs2)
        else replChar :: utf8Decode (b1 :: bs1)
    else replChar :: utf8Decode bs

/-! ## Percent-quoting: `quote`, `quote_plus` (with `safe=''`) -/

/-- The `_ALWAYS_SAFE` byte set of `urllib.parse`: ASCII letters, digits,
and `_.-~`. -/
def alwaysSafeChar (c : Char) : Bool :=
  isAsciiAlpha c || isAsciiDigit c || c = '_' || c = '.' || c = '-' || c = '~'

def pctEncodeByte (b : Nat) : Str := ['%', hexUpper (b / 16), hexUpper (b % 16)]

/-- `urllib.parse.quote(s, safe)`: UTF-8-encode, keep bytes in
`_ALWAYS_SAFE ∪ safe` (ASCII only), percent-escape the rest with upper-case
hex digits. -/
def pyQuote (safe : Str) (s : Str) : Str :=
  ((utf8Encode s).map (fun b =>
    if b < 128 && (alwaysSafeChar (Char.ofNat b) || safe.any (fun c => c = Char.ofNat b))
    then [Char.ofNat b] else pctEncodeByte b)).flatten

/-- `urllib.parse.quote_plus(s, safe='')`: if `s` has no space, plain
`quote`; otherwise quote with space kept safe and then map spaces to `+`. -/
def pyQuotePlus (s : Str) : Str :=
  if s.any (fun c => c = ' ')
  then (pyQuote [' '] s).map (fun c => if c = ' ' then '+' else c)
  else pyQuote [] s

/-! ## Percent-unquoting: `unquote_to_bytes`, `unquote` -/

/-- The byte-level loop of `unquote_to_bytes`: replace `%xx` (two hex
digits, any case) by the byte, leave other text and stray `%` alone. -/
def unquoteBytesAux : List Nat → List Nat
  | [] => []
  | 37 :: b1 :: b2 :: rest =>
    match hexVal (Char.ofNat b1), hexVal (Char.ofNat b2) with
    | some h, some l => (16 * h + l) :: unquoteBytesAux rest
    | _, _ => 37 :: unquoteBytesAux (b1 :: b2 :: rest)
  | b :: rest => b :: unquoteBytesAux rest

/-- `unquote` processes maximal ASCII runs through
`unquote_to_bytes(run).decode('utf-8', 'replace')` and passes non-ASCII
runs through unchanged (the `_asciire.split` loop).  Structural fuel; a
fuel of `s.length` always suffices (each step consumes at least one
character), and exhausted fuel returns the rest unchanged. -/
def unquoteRuns : Nat → Str → Str
  | 0, s => s
  | _ + 1, [] => []
  | fuel + 1, c :: rest =>
    if c.toNat < 128 then
      utf8Decode (unquoteBytesAux (utf8Encode ((c :: rest).takeWhile (fun x => x.toNat < 128)))) ++
        unquoteRuns fuel ((c :: rest).dropWhile (fun x => x.toNat < 128))
    else c :: unquoteRuns fuel rest

/-- `urllib.parse.unquote(s, 'utf-8', 'replace')`. -/
def pyUnquote (s : Str) : Str :=
  if s.any (fun c => c = '%') then unquoteRuns s.length s else s

/-- A name or value of a query pair: `.replace('+', ' ')` then `unquote`
(as inlined in `parse_qsl`). -/
def unqPlus (s : Str) : Str :=
  pyUnquote (s.map (fun c => if c = '+' then ' ' else c))

/-! ## `parse_qsl`, `parse_qs`, `urlencode(doseq=True)` -/

/-- `name_value.split('=', 1)` when `'='` occurs. -/
def splitFirstEq (s : Str) : Option (Str × Str) :=
  if s.any (fun c => c = '=') then
    some (s.takeWhile (fun c => c ≠ '='), (s.dropWhile (fun c => c ≠ '=')).drop 1)
  else none

/-- `urllib.parse.parse_qsl(qs, keep_blank_values, strict_parsing=False,
separator='&')` with UTF-8/replace decoding. -/
def pyParseQsl (keepBlank : Bool) (qs : Str) : List (Str × Str) :=
  if qs = [] then []
  else
    (qs.splitOn '&').filterMap (fun item =>
      if item = [] then none
      else
        match splitFirstEq item with
        | none => if keepBlank then some (unqPlus item, []) else none
        | some (n, v) =>
          if v ≠ [] ∨ keepBlank then some (unqPlus n, unqPlus v) else none)

/-- Insertion-ordered association lists standing for Python `dict`
(`str → list[str]`): `parsed_result[name].append(value)` keeps the entry in
place, a fresh name goes to the back. -/
def qsUpdate (m : List (Str × List Str)) (n : Str) (v : Str) : List (Str × List Str) :=
  if m.any (fun kv => kv.1 = n)
  then m.map (fun kv => if kv.1 = n then (kv.1, kv.2 ++ [v]) else kv)
  else m ++ [(n, [v])]

/-- `urllib.parse.parse_qs(qs)` (defaults: blank values dropped). -/
def pyParseQs (qs : Str) : List (Str × List Str) :=
  (pyParseQsl false qs).foldl (fun m nv => qsUpdate m nv.1 nv.2) []

/-- `urllib.parse.urlencode(m, doseq=True)` on a `str → list[str]` mapping:
one `k=v` pair per list element, keys and values through `quote_plus`,
joined with `&`. -/
def pyUrlencode (m : List (Str × List Str)) : Str :=
  List.intercalate ['&']
    ((m.map (fun kv => kv.2.map (fun v => pyQuotePlus kv.1 ++ '=' :: pyQuotePlus v))).flatten)

/-! ## `urlsplit` / `urlparse` (CPython 3.11) -/

def isC0Space (c : Char) : Bool := c.toNat ≤ 32

def isUnsafeUrlByte (c : Char) : Bool := c = '\t' || c = '\r' || c = '\n'

/-- `scheme_chars` of `urllib.parse`. -/
def schemeChar (c : Char) : Bool :=
  isAsciiAlpha c || isAsciiDigit c || c = '+' || c = '-' || c = '.'

/-- The scheme-extraction step of `urlsplit`: split at the first `':'` when
the prefix is nonempty, starts with an ASCII letter, and consists of scheme
characters; the scheme is lower-cased. -/
def splitScheme (url : Str) : Str × Str :=
  let pre := url.takeWhile (fun c => c ≠ ':')
  if pre ≠ [] ∧ pre ≠ url ∧ isAsciiAlpha (pre.headD ' ') ∧ pre.all schemeChar
  then (pre.map asciiLower, url.drop (pre.length + 1))
  else ([], url)

def netlocDelim (c : Char) : Bool := c = '/' || c = '?' || c = '#'

/-- `netloc.partition('[')[2].partition(']')[0]`. -/
def bracketedHost (netloc : Str) : Str :=
  ((netloc.dropWhile (fun c => c ≠ '[')).drop 1).takeWhile (fun c => c ≠ ']')

/-! ### `ipaddress`-based bracketed-host validation (CPython 3.11) -/

/-- One octet of an IPv4 address (`_parse_octet`): nonempty decimal digits,
at most three of them, no leading zero except `0` itself, value at most
255. -/
def ipv4OctetOk (o : Str) : Bool :=
  o ≠ [] && o.all isAsciiDigit && o.length ≤ 3 &&
    (o = ['0'] || o.headD '0' ≠ '0') &&
    o.foldl (fun a c => a * 10 + (c.toNat - 48)) 0 ≤ 255

/-- Validity per `ipaddress.IPv4Address(h)`: no `/`, exactly four
dot-separated valid octets. -/
def ipv4Ok (h : Str) : Bool :=
  !(h.any (fun c => c = '/')) && h ≠ [] &&
    ((h.splitOn '.').length = 4 && (h.splitOn '.').all ipv4OctetOk)

/-- One hextet (`_parse_hextet`): nonempty, at most four hex digits
(`int('', 16)` raises, so empty is invalid). -/
def hextetOk (p : Str) : Bool := p ≠ [] && p.length ≤ 4 && p.all isHexDigitChar

/-- `IPv6Address._ip_int_from_string` validity: split on `':'`, optional
IPv4-style last part (replaced by two synthetic valid hextets), at most one
`'::'` run with the endpoint rules, hextet checks on the used parts. -/
def ipv6IntOk (addr : Str) : Bool :=
  if addr = [] then false
  else
    let parts0 := addr.splitOn ':'
    if parts0.length < 3 then false
    else
      match (if (parts0.getLastD []).any (fun c => c = '.')
             then (if ipv4Ok (parts0.getLastD [])
                   then some (parts0.dropLast ++ [['0'], ['0']]) else none)
             else some parts0) with
      | none => false
      | some parts =>
        if 9 < parts.length then false
        else
          match (List.range parts.length).filter
              (fun i => decide (0 < i) && decide (i < parts.length - 1) && parts.getD i [' '] = []) with
          | [] =>
            decide (parts.length = 8) && parts.headD [] ≠ [] && parts.getLastD [] ≠ [] &&
              parts.all hextetOk
          | [i] =>
            (if parts.headD [' '] = [] then decide (i = 1) else true) &&
            (if parts.getLastD [' '] = [] then decide (i = parts.length - 2) else true) &&
            (let hi := if parts.headD [' '] = [] then i - 1 else i
             let lo := (if parts.getLastD [' '] = []
                        then parts.length - i - 1 - 1 else parts.length - i - 1)
             hi + lo ≤ 7 && (parts.take hi).all hextetOk &&
               (parts.drop (parts.length - lo)).all hextetOk)
          | _ => false

/-- `ipaddress.IPv6Address(h)` validity: no `/`, an optional nonempty
`%scope` (itself `%`-free), and a valid address part. -/
def ipv6Ok (h : Str) : Bool :=
  if h.any (fun c => c = '/') then false
  else
    let addr := h.takeWhile (fun c => c ≠ '%')
    let scope := (h.dropWhile (fun c => c ≠ '%')).drop 1
    if h.any (fun c => c = '%') && (scope = [] || scope.any (fun c => c = '%')) then false
    else ipv6IntOk addr

/-- `_check_bracketed_host` (`true` = passes): an `IPvFuture` literal
`v<hex>+.<rest>` when starting with `v`, otherwise `ip_address(h)` must
succeed and not be IPv4. -/
def checkBracketedHost (h : Str) : Bool :=
  match h with
  | 'v' :: t =>
    let r := t.takeWhile isHexDigitChar
    r ≠ [] && (t.drop r.length).take 1 = ['.'] && t.drop (r.length + 1) ≠ [] &&
      (t.drop (r.length + 1)).all (fun c => c ≠ '\n')
  | _ => if ipv4Ok h then false else ipv6Ok h

/-- The bracket conditions `urlsplit` imposes on a netloc (`true` = no
`ValueError`): brackets must be balanced in the `[`/`]`-presence sense, and
a bracketed host must validate. -/
def netlocBracketsOk (netloc : Str) : Bool :=
  if netloc.any (fun c => c = '[') && !(netloc.any (fun c => c = ']')) then false
  else if netloc.any (fun c => c = ']') && !(netloc.any (fun c => c = '[')) then false
  else if netloc.any (fun c => c = '[') && netloc.any (fun c => c = ']')
       then checkBracketedHost (bracketedHost netloc)
  else true

/-- Models `unicodedata.normalize('NFKC', s)` as the identity.  This is
faithful for every netloc that is NFKC-stable (in particular all ASCII
netlocs); under it `_checknetloc` below never fails. -/
def nfkcNormalize (s : Str) : Str := s

/-- `_checknetloc` (`true` = passes). -/
def pyChecknetloc (netloc : Str) : Bool :=
  if netloc = [] || netloc.all (fun c => c.toNat < 128) then true
  else
    let n := netloc.filter (fun c => c ≠ '@' && c ≠ ':' && c ≠ '#' && c ≠ '?')
    if nfkcNormalize n = n then true
    else !(['/', '?', '#', '@', ':'].any (fun c => (nfkcNormalize n).any (fun d => d = c)))

structure SplitResult where
  scheme : Str
  netloc : Str
  path : Str
  query : Str
  fragment : Str
deriving DecidableEq, Repr

/-- Fragment then query extraction (in `urlsplit`'s order: the fragment is
split off at the first `'#'` of the whole remainder, the query at the first
`'?'` of what is left). -/
def splitFragQuery (u3 : Str) : Str × Str × Str :=
  let u4 := if u3.any (fun c => c = '#') then u3.takeWhile (fun c => c ≠ '#') else u3
  let frag := if u3.any (fun c => c = '#') then (u3.dropWhile (fun c => c ≠ '#')).drop 1 else []
  let path := if u4.any (fun c => c = '?') then u4.takeWhile (fun c => c ≠ '?') else u4
  let query := if u4.any (fun c => c = '?') then (u4.dropWhile (fun c => c ≠ '?')).drop 1 else []
  (path, query, frag)

/-- `urllib.parse.urlsplit(url)` (CPython 3.11): lstrip C0-control/space,
remove tab/CR/LF, extract scheme, extract netloc after `'//'` (with the
bracket and `_checknetloc` checks; `none` models `ValueError`), then split
fragment and query. -/
def pyUrlsplit (url0 : Str) : Option SplitResult :=
  let url1 := (url0.dropWhile isC0Space).filter (fun c => !isUnsafeUrlByte c)
  let sp := splitScheme url1
  let scheme := sp.1
  let u2 := sp.2
  if u2.take 2 = ['/', '/'] then
    let netloc := (u2.drop 2).takeWhile (fun c => !netlocDelim c)
    let u3 := (u2.drop 2).dropWhile (fun c => !netlocDelim c)
    if netlocBracketsOk netloc && pyChecknetloc netloc then
      let pqf := splitFragQuery u3
      some ⟨scheme, netloc, pqf.1, pqf.2.1, pqf.2.2⟩
    else none
  else
    let pqf := splitFragQuery u2
    some ⟨scheme, [], pqf.1, pqf.2.1, pqf.2.2⟩

def usesParams : List Str :=
  ["", "ftp", "hdl", "prospero", "http", "imap", "https", "shttp", "rtsp",
   "rtsps", "rtspu", "sip", "sips", "mms", "sftp", "tel"].map String.toList

def usesNetloc : List Str :=
  ["", "ftp", "http", "gopher", "nntp", "telnet", "imap", "wais", "file",
   "mms", "https", "shttp", "snews", "prospero", "rtsp", "rtsps", "rtspu",
   "rsync", "svn", "svn+ssh", "sftp", "nfs", "git", "git+ssh", "ws",
   "wss"].map String.toList

/-- `_splitparams(url)`: split at the first `';'` at or after the last
`'/'` (or the first `';'` anywhere when there is no `'/'`).  `urlparse`
only calls this when `';'` occurs; the no-`'/'`, no-`';'` branch mirrors
Python's `url[:-1], url[0:]` literally all the same. -/
def splitParams (p : Str) : Str × Str :=
  if p.any (fun c => c = '/') then
    let tl := (p.reverse.takeWhile (fun c => c ≠ '/')).reverse
    if tl.any (fun c => c = ';')
    then (p.take (p.length - tl.length) ++ tl.takeWhile (fun c => c ≠ ';'),
          (tl.dropWhile (fun c => c ≠ ';')).drop 1)
    else (p, [])
  else if p.any (fun c => c = ';')
  then (p.takeWhile (fun c => c ≠ ';'), (p.dropWhile (fun c => c ≠ ';')).drop 1)
  else (p.dropLast, p)

structure ParseResult where
  scheme : Str
  netloc : Str
  path : Str
  params : Str
  query : Str
  fragment : Str
deriving DecidableEq, Repr

/-- `urllib.parse.urlparse(url)`: `urlsplit`, then split `params` off the
path when the scheme uses them and a `';'` is present. -/
def pyUrlparse (url : Str) : Option ParseResult :=
  match pyUrlsplit url with
  | none => none
  | some s =>
    if usesParams.any (fun x => x = s.scheme) && s.path.any (fun c => c = ';') then
      let pp := splitParams s.path
      some ⟨s.scheme, s.netloc, pp.1, pp.2, s.query, s.fragment⟩
    else some ⟨s.scheme, s.netloc, s.path, [], s.query, s.fragment⟩

/-! ## `urlunsplit` / `urlunparse` (CPython 3.11) -/

/-- The `url` rebuilt by `urlunsplit` before the query and fragment are
appended: the optional `'//' + netloc` (with a `'/'` inserted before a
relative path) step. -/
def unsplitNetlocPart (scheme netloc url0 : Str) : Str :=
  if netloc ≠ [] ∨ (scheme ≠ [] ∧ usesNetloc.any (fun x => x = scheme) ∧ url0.take 2 ≠ ['/', '/'])
  then '/' :: '/' :: netloc ++ (if url0 ≠ [] ∧ url0.take 1 ≠ ['/'] then '/' :: url0 else url0)
  else url0

/-- The scheme-prefixing step of `urlunsplit`. -/
def unsplitBase (scheme netloc url0 : Str) : Str :=
  if scheme ≠ [] then scheme ++ ':' :: unsplitNetlocPart scheme netloc url0
  else unsplitNetlocPart scheme netloc url0

def pyUrlunsplit (scheme netloc url0 query fragment : Str) : Str :=
  let url3 := if query ≠ [] then unsplitBase scheme netloc url0 ++ '?' :: query
              else unsplitBase scheme netloc url0
  if fragment ≠ [] then url3 ++ '#' :: fragment else url3

def pyUrlunparse (scheme netloc path params query fragment : Str) : Str :=
  pyUrlunsplit scheme netloc (if params ≠ [] then path ++ ';' :: params else path) query fragment

/-! ## The redactor (`redact_url_parameters` of `src/main.py`) -/

/-- The parameter-replacement loop:
`for param in params_to_redact: if param in query_params: query_params[param] = [redaction_string]`. -/
def redactQueryParams (m : List (Str × List Str)) (ps : List Str) (tok : Str) :
    List (Str × List Str) :=
  ps.foldl (fun m p =>
    if m.any (fun kv => kv.1 = p)
    then m.map (fun kv => if kv.1 = p then (kv.1, [tok]) else kv)
    else m) m

/-- The success path of `redact_url_parameters` after a successful parse. -/
def redactSuccess (p : ParseResult) (params_to_redact : List Str) (redaction_string : Str) : Str :=
  pyUrlunparse p.scheme p.netloc p.path p.params
    (pyUrlencode (redactQueryParams (pyParseQs p.query) params_to_redact redaction_string))
    p.fragment

/-- `redact_url_parameters(url, params_to_redact, redaction_string)`.
Inside the `try` block only `urlparse` can raise (`ValueError` on the
netloc checks); `parse_qs`, `urlencode` and `urlunparse` cannot on these
argument shapes, so the `except` branch is exactly the parse-failure
branch and returns the original `url`. -/
def redact_url_parameters (url : Str) (params_to_redact : List Str)
    (redaction_string : Str) : Str :=
  match pyUrlparse url with
  | none => url
  | some p => redactSuccess p params_to_redact redaction_string

/-! ## The URL locator (`url_pattern` and `re.sub` of `process_line`)

The verbose regex of `process_line` is, with whitespace removed:

`\b(https?://(?:[a-zA-Z0-9.-]+|\[[a-fA-F0-9:]+\])(?::[0-9]+)?(?:/[a-zA-Z0-9_@%+-]*.[a-zA-Z0-9_@%+-]*)*(?:\?[a-zA-Z0-9_@%&+=;-]*[a-zA-Z0-9_@%&+=;-]*)?(?:\#[a-zA-Z0-9_@%&+=;-]*[a-zA-Z0-9_@%&+=;-]*)?)\b`

Note the unescaped `.` in the path group: it matches any character except
a newline.  The matcher below hand-compiles this pattern with Python `re`
semantics: greedy quantifiers with backtracking, alternation tried in
order, and `\b` word boundaries.  Each matcher stage takes the previously
consumed character (`last`, for the final `\b`) and the remaining input,
and returns the suffix left after a successful match of the rest of the
pattern.  The four mutually recursive stages of the path-segment star use
structural fuel (each round of the cycle consumes at least two
characters, so the fuel supplied by `matchSegsTop` always suffices). -/

/-- Python `\w`, restricted to ASCII (see the header note). -/
def isWordChar (c : Char) : Bool := isAsciiAlpha c || isAsciiDigit c || c = '_'

def domainChar (c : Char) : Bool := isAsciiAlpha c || isAsciiDigit c || c = '.' || c = '-'

def ipv6LitChar (c : Char) : Bool := isHexDigitChar c || c = ':'

def pathChar (c : Char) : Bool :=
  isAsciiAlpha c || isAsciiDigit c || c = '_' || c = '@' || c = '%' || c = '+' || c = '-'

def queryFragChar (c : Char) : Bool := pathChar c || c = '&' || c = '=' || c = ';'

/-- The final `\b`: a word boundary between the last consumed character and
the head of the remaining input. -/
def matchEnd (last : Char) (s : Str) : Option Str :=
  match s with
  | [] => if isWordChar last then some [] else none
  | c :: _ => if isWordChar last ≠ isWordChar c then some s else none

/-- Second `[a-zA-Z0-9_@%&+=;-]*` of the fragment group, then `\b`. -/
def fragB2 (last : Char) : Str → Option Str
  | [] => matchEnd last []
  | c :: rest =>
    if queryFragChar c then
      match fragB2 c rest with
      | some r => some r
      | none => matchEnd last (c :: rest)
    else matchEnd last (c :: rest)

/-- First `[a-zA-Z0-9_@%&+=;-]*` of the fragment group. -/
def fragB1 (last : Char) : Str → Option Str
  | [] => fragB2 last []
  | c :: rest =>
    if queryFragChar c then
      match fragB1 c rest with
      | some r => some r
      | none => fragB2 last (c :: rest)
    else fragB2 last (c :: rest)

/-- The optional fragment group `(?:\#[...]*[...]*)?`. -/
def matchFrag (last : Char) (s : Str) : Option Str :=
  match (match s with
         | '#' :: rest => fragB1 '#' rest
         | _ => none) with
  | some r => some r
  | none => matchEnd last s

/-- Second `[...]*` of the query group, then the fragment group. -/
def queryB2 (last : Char) : Str → Option Str
  | [] => matchFrag last []
  | c :: rest =>
    if queryFragChar c then
      match queryB2 c rest with
      | some r => some r
      | none => matchFrag last (c :: rest)
    else matchFrag last (c :: rest)

/-- First `[...]*` of the query group. -/
def queryB1 (last : Char) : Str → Option Str
  | [] => queryB2 last []
  | c :: rest =>
    if queryFragChar c then
      match queryB1 c rest with
      | some r => some r
      | none => queryB2 last (c :: rest)
    else queryB2 last (c :: rest)

/-- The optional query group `(?:\?[...]*[...]*)?`. -/
def matchQuery (last : Char) (s : Str) : Option Str :=
  match (match s with
         | '?' :: rest => queryB1 '?' rest
         | _ => none) with
  | some r => some r
  | none => matchFrag last s

mutual

/-- The path-segment star `(?:/[a-zA-Z0-9_@%+-]*.[a-zA-Z0-9_@%+-]*)*`:
greedily try one more `/`-segment, else fall through to the query group. -/
def matchSegs : Nat → Char → Str → Option Str
  | 0, _, _ => none
  | fuel + 1, last, s =>
    match (match s with
           | '/' :: rest => segA1 fuel '/' rest
           | _ => none) with
    | some r => some r
    | none => matchQuery last s

/-- `[a-zA-Z0-9_@%+-]*` before the (unescaped) dot of a path segment. -/
def segA1 : Nat → Char → Str → Option Str
  | 0, _, _ => none
  | fuel + 1, last, s =>
    match s with
    | [] => segAny fuel last []
    | c :: rest =>
      if pathChar c then
        match segA1 fuel c rest with
        | some r => some r
        | none => segAny fuel last (c :: rest)
      else segAny fuel last (c :: rest)

/-- The unescaped `.` of a path segment: any character except `'\n'`. -/
def segAny : Nat → Char → Str → Option Str
  | 0, _, _ => none
  | fuel + 1, _, s =>
    match s with
    | [] => none
    | c :: rest => if c ≠ '\n' then segA2 fuel c rest else none

/-- `[a-zA-Z0-9_@%+-]*` after the dot, then back to the segment star. -/
def segA2 : Nat → Char → Str → Option Str
  | 0, _, _ => none
  | fuel + 1, last, s =>
    match s with
    | [] => matchSegs fuel last []
    | c :: rest =>
      if pathChar c then
        match segA2 fuel c rest with
        | some r => some r
        | none => matchSegs fuel last (c :: rest)
      else matchSegs fuel last (c :: rest)

end

/-- Entry to the segment star with ample fuel. -/
def matchSegsTop (last : Char) (s : Str) : Option Str := matchSegs (4 * s.length + 8) last s

/-- `[0-9]*` after the first port digit, then the segment star. -/
def portRun (last : Char) : Str → Option Str
  | [] => matchSegsTop last []
  | c :: rest =>
    if isAsciiDigit c then
      match portRun c rest with
      | some r => some r
      | none => matchSegsTop last (c :: rest)
    else matchSegsTop last (c :: rest)

/-- The optional port group `(?::[0-9]+)?`. -/
def matchPort (last : Char) (s : Str) : Option Str :=
  match (match s with
         | ':' :: c :: rest => if isAsciiDigit c then portRun c rest else none
         | _ => none) with
  | some r => some r
  | none => matchSegsTop last s

/-- `[a-zA-Z0-9.-]*` after the first domain character. -/
def hostDom (last : Char) : Str → Option Str
  | [] => matchPort last []
  | c :: rest =>
    if domainChar c then
      match hostDom c rest with
      | some r => some r
      | none => matchPort last (c :: rest)
    else matchPort last (c :: rest)

/-- The closing `]` of an IPv6 literal. -/
def closeBr : Str → Option Str
  | ']' :: rest => matchPort ']' rest
  | _ => none

/-- `[a-fA-F0-9:]*` after the first character inside `[...]`. -/
def brHex : Str → Option Str
  | [] => closeBr []
  | c :: rest =>
    if ipv6LitChar c then
      match brHex rest with
      | some r => some r
      | none => closeBr (c :: rest)
    else closeBr (c :: rest)

/-- The host alternation `(?:[a-zA-Z0-9.-]+|\[[a-fA-F0-9:]+\])`, domain
branch first. -/
def matchHost (s : Str) : Option Str :=
  match (match s with
         | c :: rest => if domainChar c then hostDom c rest else none
         | [] => none) with
  | some r => some r
  | none =>
    match s with
    | '[' :: c :: rest => if ipv6LitChar c then brHex rest else none
    | _ => none

/-- Try to match the whole pattern anchored at the start of `s`, where
`prevW` says whether the character before `s` is a word character (the
opening `\b`; the first pattern character `h` is a word character, so the
boundary demands a non-word predecessor).  Returns the suffix after the
match. -/
def tryMatch (prevW : Bool) (s : Str) : Option Str :=
  if prevW then none
  else
    match s with
    | 'h' :: 't' :: 't' :: 'p' :: rest =>
      match (match rest with
             | 's' :: ':' :: '/' :: '/' :: r3 => matchHost r3
             | _ => none) with
      | some r => some r
      | none =>
        match rest with
        | ':' :: '/' :: '/' :: r3 => matchHost r3
        | _ => none
    | _ => none

/-- The left-to-right non-overlapping scan of `re.sub`: at each position
try an anchored match; on failure move one character into the current gap,
on success record the matched text and resume after it (every match is
nonempty, since it contains `http://`).  Returns the list of
(gap, match) pieces and the trailing gap.  Fuel is structural; `length + 1`
suffices. -/
def scanParts : Nat → Bool → Str → List (Str × Str) × Str
  | 0, _, s => ([], s)
  | fuel + 1, prevW, s =>
    match s with
    | [] => ([], [])
    | c :: rest =>
      match tryMatch prevW (c :: rest) with
      | some r =>
        let m := (c :: rest).take ((c :: rest).length - r.length)
        let pt := scanParts fuel (isWordChar (m.getLastD ' ')) r
        (([], m) :: pt.1, pt.2)
      | none =>
        let pt := scanParts fuel (isWordChar c) rest
        match pt.1 with
        | [] => ([], c :: pt.2)
        | (g, m) :: ps2 => ((c :: g, m) :: ps2, pt.2)

/-- `url_pattern.sub(f, line)`: rebuild the line from the scan, replacing
each matched span by `f` of it. -/
def pyRegexSub (f : Str → Str) (line : Str) : Str :=
  let pt := scanParts (line.length + 1) false line
  ((pt.1.map (fun gm => gm.1 ++ f gm.2)).flatten) ++ pt.2

/-- `process_line(line, params_to_redact, redaction_string)` of
`src/main.py`. -/
def process_line (line : Str) (params_to_redact : List Str) (redaction_string : Str) : Str :=
  pyRegexSub (fun url => redact_url_parameters url params_to_redact redaction_string) line

/-- The URL candidates the locator finds in a line, in scan order. -/
def processLineCandidates (line : Str) : List Str :=
  (scanParts (line.length + 1) false line).1.map (fun gm => gm.2)

/-! ## Exact acceptance of the URL pattern

`urlShapeExact s` decides whether the pattern body (capture group 1 of
`url_pattern`, i.e. everything except the surrounding `\b`) can match the
string `s` exactly, exploring all quantifier splits.  This is the match
relation of the regex, independent of the engine's greedy strategy; it is
used to state that a candidate the scanner returns is not maximal. -/

def exEnd (s : Str) : Bool := s = []

def exFragB2 (s : Str) : Bool :=
  exEnd s || (match s with | c :: rest => queryFragChar c && exFragB2 rest | [] => false)

def exFragB1 (s : Str) : Bool :=
  exFragB2 s || (match s with | c :: rest => queryFragChar c && exFragB1 rest | [] => false)

def exFrag (s : Str) : Bool :=
  (match s with | '#' :: rest => exFragB1 rest | _ => false) || exEnd s

def exQB2 (s : Str) : Bool :=
  exFrag s || (match s with | c :: rest => queryFragChar c && exQB2 rest | [] => false)

def exQB1 (s : Str) : Bool :=
  exQB2 s || (match s with | c :: rest => queryFragChar c && exQB1 rest | [] => false)

def exQuery (s : Str) : Bool :=
  (match s with | '?' :: rest => exQB1 rest | _ => false) || exFrag s

mutual

def exSegs : Nat → Str → Bool
  | 0, _ => false
  | fuel + 1, s =>
    (match s with | '/' :: rest => exA1 fuel rest | _ => false) || exQuery s

def exA1 : Nat → Str → Bool
  | 0, _ => false
  | fuel + 1, s =>
    (match s with | c :: rest => pathChar c && exA1 fuel rest | [] => false) || exAny fuel s

def exAny : Nat → Str → Bool
  | 0, _ => false
  | fuel + 1, s =>
    match s with | c :: rest => c ≠ '\n' && exA2 fuel rest | [] => false

def exA2 : Nat → Str → Bool
  | 0, _ => false
  | fuel + 1, s =>
    (match s with | c :: rest => pathChar c && exA2 fuel rest | [] => false) || exSegs fuel s

end

def exSegsTop (s : Str) : Bool := exSegs (4 * s.length + 8) s

def exPortRun (s : Str) : Bool :=
  (match s with | c :: rest => isAsciiDigit c && exPortRun rest | [] => false) || exSegsTop s

def exPort (s : Str) : Bool :=
  (match s with | ':' :: c :: rest => isAsciiDigit c && exPortRun rest | _ => false) || exSegsTop s

def exHostDom (s : Str) : Bool :=
  (match s with | c :: rest => domainChar c && exHostDom rest | [] => false) || exPort s

def exCloseBr (s : Str) : Bool :=
  match s with | ']' :: rest => exPort rest | _ => false

def exBrHex (s : Str) : Bool :=
  (match s with | c :: rest => ipv6LitChar c && exBrHex rest | [] => false) || exCloseBr s

def urlShapeExact (s : Str) : Bool :=
  match s with
  | 'h' :: 't' :: 't' :: 'p' :: rest =>
    (match rest with
     | 's' :: ':' :: '/' :: '/' :: r3 =>
       (match r3 with | c :: r4 => domainChar c && exHostDom r4 | [] => false) ||
       (match r3 with | '[' :: c :: r4 => ipv6LitChar c && exBrHex r4 | _ => false)
     | _ => false) ||
    (match rest with
     | ':' :: '/' :: '/' :: r3 =>
       (match r3 with | c :: r4 => domainChar c && exHostDom r4 | [] => false) ||
       (match r3 with | '[' :: c :: r4 => ipv6LitChar c && exBrHex r4 | _ => false)
     | _ => false)
  | _ => false

/-! ## Claim theorems: error handling and totality -/

/-- C2: if URL parsing fails, `redact_url_parameters` returns the original
string exactly (identity fallback; only a warning is logged, never fatal). -/
theorem redact_parse_failure_identity (u : Str) (P : List Str) (T : Str)
    (h : pyUrlparse u = none) : redact_url_parameters u P T = u := by
  unfold redact_url_parameters
  rw [h]

theorem redact_parse_failure_identity_witness :
    pyUrlparse "https://bad]url?api_key=x".toList = none ∧
    redact_url_parameters "https://bad]url?api_key=x".toList ["api_key".toList]
      "RED".toList = "https://bad]url?api_key=x".toList :=
  ⟨by decide, redact_parse_failure_identity _ _ _ (by decide)⟩

/-- C9: `redact_url_parameters` is total — for every input it either
returns the serialization of the successfully parsed URL, or (on the
exception path) the original string; no other outcome exists. -/
theorem redact_total (u : Str) (P : List Str) (T : Str) :
    (∃ pr, pyUrlparse u = some pr ∧ redact_url_parameters u P T = redactSuccess pr P T) ∨
    (pyUrlparse u = none ∧ redact_url_parameters u P T = u) := by
  unfold redact_url_parameters
  cases h : pyUrlparse u with
  | none => exact Or.inr ⟨rfl, rfl⟩
  | some pr => exact Or.inl ⟨pr, rfl, rfl⟩

/-! ## Claim theorems: the locator's character classes and maximality -/

/-- Modelled from the spec: the restricted character class the spec claims
for candidate paths — letters, digits, `_@%+-`, literal `.`, with `/`
beginning each segment. -/
def specPathClassChar (c : Char) : Bool :=
  isAsciiAlpha c || isAsciiDigit c || c = '_' || c = '@' || c = '%' ||
    c = '+' || c = '-' || c = '.' || c = '/'

/-- C5: the locator's path matching is NOT restricted to the claimed
class: on the spec's own design-note example the single candidate swallows
a space and the following word (` for`), because the unescaped `.` in the
path group matches any character except a newline. -/
theorem locator_path_class_violated :
    processLineCandidates "see https://example.com/x for details".toList
      = ["https://example.com/x for".toList] ∧
    "https://example.com/x for".toList
      = "https://example.com".toList ++ "/x for".toList ∧
    ("/x for".toList).all specPathClassChar = false := by
  refine ⟨by decide, by decide, by decide⟩

/-- C7: the candidates are not maximal.  On the spec's example scenario 1
the scanner returns the single candidate `https://example.com/path?api_key`
although its strictly longer extension
`https://example.com/path?api_key=SECRET123&x=1` (ending at a valid word
boundary before the space) also matches the URL pattern; redacting the
truncated candidate then mangles the line to
`Visit https://example.com/path=SECRET123&x=1 now` instead of the spec's
documented expected output. -/
theorem locator_candidates_not_maximal :
    processLineCandidates "Visit https://example.com/path?api_key=SECRET123&x=1 now".toList
      = ["https://example.com/path?api_key".toList] ∧
    "Visit https://example.com/path?api_key=SECRET123&x=1 now".toList
      = "Visit ".toList ++ "https://example.com/path?api_key=SECRET123&x=1".toList
          ++ " now".toList ∧
    "https://example.com/path?api_key=SECRET123&x=1".toList
      = "https://example.com/path?api_key".toList ++ "=SECRET123&x=1".toList ∧
    urlShapeExact "https://example.com/path?api_key=SECRET123&x=1".toList = true ∧
    isWordChar '1' = true ∧ isWordChar ' ' = false ∧
    process_line "Visit https://example.com/path?api_key=SECRET123&x=1 now".toList
        (["api_key", "password", "session_id", "auth_token"].map String.toList)
        "REDACTED".toList
      = "Visit https://example.com/path=SECRET123&x=1 now".toList := by
  refine ⟨by decide, by decide, by decide, by decide, by decide, by decide, by decide⟩

/-! ## Claim theorems: idempotence counterexample -/

/-- C3 counterexample: redaction is not idempotent as stated.  With the
empty token the redacted pair `password=` is dropped by the second pass;
and even with a nonempty token, a URL with empty authority whose scheme is
not in `uses_netloc` keeps losing a slash on every pass
(`bar://///x?a=1` → `bar:///x?a=1` → `bar:/x?a=1`). -/
theorem redact_not_idempotent :
    (redact_url_parameters
        (redact_url_parameters "http://example.com/?password=x".toList
          ["password".toList] [])
        ["password".toList] []
      ≠ redact_url_parameters "http://example.com/?password=x".toList
          ["password".toList] []) ∧
    (redact_url_parameters
        (redact_url_parameters "bar://///x?a=1".toList ["password".toList] "REDACTED".toList)
        ["password".toList] "REDACTED".toList
      ≠ redact_url_parameters "bar://///x?a=1".toList ["password".toList]
          "REDACTED".toList) := by
  refine ⟨by decide, by decide⟩
/-! ## Claim theorems: pass-through of lines without URLs -/

/-- Whether `s` begins with `pat`. -/
def startsWithStr (pat s : Str) : Bool := s.take pat.length = pat

/-- Whether `pat` occurs as a contiguous substring of `s`. -/
def hasSub (pat : Str) : Str → Bool
  | [] => startsWithStr pat []
  | c :: rest => startsWithStr pat (c :: rest) || hasSub pat rest

theorem hasSub_of_drop_eq {pat s t : Str} :
    ∀ i : Nat, s.drop i = pat ++ t → hasSub pat s = true := by
  induction s with
  | nil =>
    intro i h
    simp at h
    cases h.1
    cases h.2
    simp [hasSub, startsWithStr]
  | cons c rest ih =>
    intro i h
    cases i with
    | zero =>
      simp only [List.drop_zero] at h
      simp [hasSub, startsWithStr, h, List.take_left]
    | succ n =>
      simp only [List.drop_succ_cons] at h
      simp [hasSub, ih n h]

theorem tryMatch_scheme {b : Bool} {s r : Str} (h : tryMatch b s = some r) :
    (∃ t, s = "http://".toList ++ t) ∨ (∃ t, s = "https://".toList ++ t) := by
  unfold tryMatch at h
  split at h
  · simp at h
  · split at h
    · split at h
      · rename_i r2 heq
        split at heq
        · exact Or.inr ⟨_, rfl⟩
        · simp at heq
      · split at h
        · exact Or.inl ⟨_, rfl⟩
        · simp at h
    · simp at h

theorem scanParts_nomatch (fuel : Nat) (b : Bool) (s : Str)
    (h : ∀ i (b2 : Bool), tryMatch b2 (s.drop i) = none) :
    scanParts fuel b s = ([], s) := by
  induction fuel generalizing b s with
  | zero => rfl
  | succ n ih =>
    cases s with
    | nil => rfl
    | cons c rest =>
      have h0 : tryMatch b (c :: rest) = none := h 0 b
      have hrest : ∀ i (b2 : Bool), tryMatch b2 (rest.drop i) = none := by
        intro i b2
        have := h (i + 1) b2
        simpa using this
      simp only [scanParts, h0, ih (isWordChar c) rest hrest]

/-- C6: a line containing no `http://` and no `https://` substring is
passed through by `process_line` identically, character for character
(the URL pattern cannot match at any position of such a line, since every
match begins with one of those prefixes). -/
theorem process_line_no_url_identity (line : Str) (P : List Str) (T : Str)
    (h1 : hasSub "http://".toList line = false)
    (h2 : hasSub "https://".toList line = false) :
    process_line line P T = line := by
  have hno : ∀ i (b2 : Bool), tryMatch b2 (line.drop i) = none := by
    intro i b2
    cases hm : tryMatch b2 (line.drop i) with
    | none => rfl
    | some r =>
      rcases tryMatch_scheme hm with ⟨t, ht⟩ | ⟨t, ht⟩
      · rw [hasSub_of_drop_eq i ht] at h1
        exact absurd h1 (by simp)
      · rw [hasSub_of_drop_eq i ht] at h2
        exact absurd h2 (by simp)
  unfold process_line pyRegexSub
  rw [scanParts_nomatch _ _ _ hno]
  simp

theorem process_line_no_url_identity_witness :
    hasSub "http://".toList "No links here.".toList = false ∧
    hasSub "https://".toList "No links here.".toList = false ∧
    process_line "No links here.".toList ["api_key".toList] "REDACTED".toList
      = "No links here.".toList :=
  ⟨by decide, by decide,
    process_line_no_url_identity _ _ _ (by decide) (by decide)⟩
/-! ## Round-trip lemmas: UTF-8 -/

theorem charToNat_ofNat {n : Nat} (h : n < 55296 ∨ (57343 < n ∧ n < 1114112)) :
    (Char.ofNat n).toNat = n := by
  unfold Char.ofNat
  rw [dif_pos h]
  simp [Char.ofNatAux, Char.toNat, UInt32.toNat,
    Nat.mod_eq_of_lt (show n < 4294967296 by omega)]

theorem charOfNat_eq_of_toNat {n : Nat} {c : Char} (h : c.toNat = n) : Char.ofNat n = c := by
  rw [← h, Char.ofNat_toNat]

theorem boolIneq {p q : Prop} [Decidable p] [Decidable q] (hp : p) (hq : q) :
    (decide p && decide q) = true := by simp [hp, hq]

theorem contByte_add {x : Nat} (h : x < 64) : contByte (128 + x) = true := by
  simp only [contByte]
  exact boolIneq (by omega) (by omega)

theorem cont1Ok_3byte {n : Nat} (hlo : 2048 ≤ n) (hhi : n < 65536)
    (hv : n < 55296 ∨ 57343 < n ∧ n < 1114112) :
    cont1Ok (224 + n / 4096) (128 + n / 64 % 64) = true := by
  simp only [cont1Ok, contByte]
  split_ifs <;> exact boolIneq (by omega) (by omega)

theorem cont1Ok_4byte {n : Nat} (hlo : 65536 ≤ n) (hhi : n < 1114112) :
    cont1Ok (240 + n / 262144) (128 + n / 4096 % 64) = true := by
  simp only [cont1Ok, contByte]
  split_ifs <;> exact boolIneq (by omega) (by omega)

theorem utf8Decode_encodeChar (c : Char) (bs : List Nat) :
    utf8Decode (utf8EncodeChar c ++ bs) = c :: utf8Decode bs := by
  have hv : c.toNat < 55296 ∨ 57343 < c.toNat ∧ c.toNat < 1114112 := c.valid
  unfold utf8EncodeChar
  by_cases h1 : c.toNat < 128
  · rw [if_pos h1]
    simp only [List.cons_append, List.nil_append]
    rw [utf8Decode.eq_def]
    simp only
    rw [if_pos h1, Char.ofNat_toNat]
  · by_cases h2 : c.toNat < 2048
    · rw [if_neg h1, if_pos h2]
      simp only [List.cons_append, List.nil_append]
      rw [utf8Decode.eq_def]
      simp only
      rw [if_neg (by omega), if_neg (by omega), if_pos (by omega),
        if_pos (contByte_add (by omega))]
      rw [charOfNat_eq_of_toNat (c := c) (by omega)]
    · by_cases h3 : c.toNat < 65536
      · rw [if_neg h1, if_neg h2, if_pos h3]
        simp only [List.cons_append, List.nil_append]
        rw [utf8Decode.eq_def]
        simp only
        rw [if_neg (by omega), if_neg (by omega), if_neg (by omega), if_pos (by omega),
          if_pos (cont1Ok_3byte (by omega) (by omega) hv),
          if_pos (contByte_add (by omega))]
        rw [charOfNat_eq_of_toNat (c := c) (by omega)]
      · rw [if_neg h1, if_neg h2, if_neg h3]
        simp only [List.cons_append, List.nil_append]
        rw [utf8Decode.eq_def]
        simp only
        rw [if_neg (by omega), if_neg (by omega), if_neg (by omega), if_neg (by omega),
          if_pos (by omega),
          if_pos (cont1Ok_4byte (by omega) (by omega)),
          if_pos (contByte_add (by omega)), if_pos (contByte_add (by omega))]
        rw [charOfNat_eq_of_toNat (c := c) (by omega)]

theorem utf8Decode_encode (s : Str) : utf8Decode (utf8Encode s) = s := by
  induction s with
  | nil => rfl
  | cons c rest ih =>
    show utf8Decode (((c :: rest).map utf8EncodeChar).flatten) = c :: rest
    simp only [List.map_cons, List.flatten_cons]
    rw [utf8Decode_encodeChar]
    exact congrArg (c :: ·) ih

/-! ## Round-trip lemmas: `quote_plus` / `unquote` -/

theorem alwaysSafe_hexUpper (n : Nat) : alwaysSafeChar (hexUpper n) = true := by
  rcases Nat.lt_or_ge n 16 with h | h
  · interval_cases n <;> decide
  · unfold hexUpper
    rw [List.getD_eq_default]
    · decide
    · have h16 : ("0123456789ABCDEF".toList).length = 16 := by decide
      omega

/-- The character classification of `quote` output. -/
def quotedOk (safe : Str) (c : Char) : Bool :=
  alwaysSafeChar c || safe.any (fun x => x = c) || c = '%'

/-- The per-byte step of `pyQuote`. -/
def quoteStep (safe : Str) (b : Nat) : Str :=
  if b < 128 && (alwaysSafeChar (Char.ofNat b) || safe.any (fun c => c = Char.ofNat b))
  then [Char.ofNat b] else pctEncodeByte b

theorem pyQuote_eq_steps (safe s : Str) :
    pyQuote safe s = ((utf8Encode s).map (quoteStep safe)).flatten := rfl

theorem quoteStep_all (safe : Str) (b : Nat) : (quoteStep safe b).all (quotedOk safe) := by
  unfold quoteStep
  split
  · rename_i h
    simp only [List.all_cons, List.all_nil, Bool.and_true, quotedOk]
    simp only [Bool.and_eq_true] at h
    simp [h.2]
  · simp only [pctEncodeByte, List.all_cons, List.all_nil, Bool.and_true, quotedOk]
    simp [alwaysSafe_hexUpper]

theorem pyQuote_all (safe s : Str) : (pyQuote safe s).all (quotedOk safe) := by
  rw [pyQuote_eq_steps, List.all_eq_true]
  intro c hc
  rw [List.mem_flatten] at hc
  obtain ⟨l, hl, hcl⟩ := hc
  rw [List.mem_map] at hl
  obtain ⟨b, _, rfl⟩ := hl
  exact List.all_eq_true.mp (quoteStep_all safe b) c hcl

/-- The character classification of `quote_plus` output. -/
def quotePlusOk (c : Char) : Bool := alwaysSafeChar c || c = '%' || c = '+'

theorem pyQuotePlus_all (s : Str) : (pyQuotePlus s).all quotePlusOk := by
  unfold pyQuotePlus
  split
  · rw [List.all_eq_true]
    intro c hc
    rw [List.mem_map] at hc
    obtain ⟨d, hd, rfl⟩ := hc
    have hq := List.all_eq_true.mp (pyQuote_all [' '] s) d hd
    simp only [quotedOk, List.any_cons, List.any_nil, Bool.or_false, Bool.or_eq_true,
      decide_eq_true_eq] at hq
    by_cases hsp : d = ' '
    · simp [hsp, quotePlusOk]
    · rw [if_neg hsp]
      rcases hq with (h | h) | h
      · simp [quotePlusOk, h]
      · exact absurd h.symm hsp
      · simp [quotePlusOk, h]
  · rw [List.all_eq_true]
    intro c hc
    have hq := List.all_eq_true.mp (pyQuote_all [] s) c hc
    simp only [quotedOk, List.any_nil, Bool.or_false, Bool.or_eq_true, decide_eq_true_eq] at hq
    rcases hq with h | h
    · simp [quotePlusOk, h]
    · simp [quotePlusOk, h]

/-- Transfer: if a character class excludes a given character, every string
of that class avoids it. -/
theorem all_ne_of_all_class {p : Char → Bool} {s : Str} (h : s.all p) (c0 : Char)
    (hc0 : p c0 = false) : s.all (fun c => c ≠ c0) := by
  rw [List.all_eq_true] at h ⊢
  intro c hc
  have := h c hc
  simp only [ne_eq, decide_eq_true_eq]
  intro heq
  rw [heq, hc0] at this
  exact absurd this (by simp)

theorem charLe_toNat {a b : Char} (h : a ≤ b) : a.toNat ≤ b.toNat := h

theorem alwaysSafe_ascii {c : Char} (h : alwaysSafeChar c = true) : c.toNat < 128 := by
  simp only [alwaysSafeChar, isAsciiAlpha, isAsciiUpper, isAsciiLower, isAsciiDigit,
    Bool.or_eq_true, Bool.and_eq_true, decide_eq_true_eq] at h
  rcases h with (((((⟨h1, h2⟩ | ⟨h1, h2⟩) | ⟨h1, h2⟩) | h) | h) | h) | h
  · have hb := charLe_toNat h2
    have hz : ('Z').toNat = 90 := by decide
    omega
  · have hb := charLe_toNat h2
    have hz : ('z').toNat = 122 := by decide
    omega
  · have hb := charLe_toNat h2
    have hz : ('9').toNat = 57 := by decide
    omega
  · rw [h]; decide
  · rw [h]; decide
  · rw [h]; decide
  · rw [h]; decide

theorem utf8EncodeChar_ascii {c : Char} (h : c.toNat < 128) : utf8EncodeChar c = [c.toNat] := by
  unfold utf8EncodeChar
  rw [if_pos h]

theorem utf8Encode_cons (c : Char) (s : Str) :
    utf8Encode (c :: s) = utf8EncodeChar c ++ utf8Encode s := by
  simp [utf8Encode]

theorem utf8Encode_append (a b : Str) :
    utf8Encode (a ++ b) = utf8Encode a ++ utf8Encode b := by
  simp [utf8Encode]

theorem utf8Encode_singleton (c : Char) : utf8Encode [c] = utf8EncodeChar c := by
  simp [utf8Encode]

theorem utf8Encode_ascii {s : Str} (h : s.all (fun c => c.toNat < 128)) :
    utf8Encode s = s.map Char.toNat := by
  induction s with
  | nil => rfl
  | cons c rest ih =>
    simp only [List.all_cons, Bool.and_eq_true, decide_eq_true_eq] at h
    rw [utf8Encode_cons, utf8EncodeChar_ascii h.1, ih h.2, List.map_cons, List.singleton_append]

theorem hexVal_hexUpper {n : Nat} (h : n < 16) : hexVal (hexUpper n) = some n := by
  interval_cases n <;> decide

theorem unquoteBytesAux_cons_ne37 {b : Nat} (hb : b ≠ 37) (rest : List Nat) :
    unquoteBytesAux (b :: rest) = b :: unquoteBytesAux rest := by
  rw [unquoteBytesAux.eq_def]
  split
  · rename_i heq
    simp at heq
  · rename_i b1 b2 rest2 heq
    rw [List.cons.injEq] at heq
    exact absurd heq.1 hb
  · rename_i b0 rest0 hno heq
    rw [List.cons.injEq] at heq
    rw [heq.1, heq.2]

theorem unquoteBytesAux_no37 {bs : List Nat} (h : ∀ b ∈ bs, b ≠ 37) :
    unquoteBytesAux bs = bs := by
  induction bs with
  | nil => rfl
  | cons b rest ih =>
    rw [unquoteBytesAux_cons_ne37 (h b (by simp)) rest,
      ih (fun x hx => h x (List.mem_cons_of_mem _ hx))]

theorem unquoteBytesAux_pct {x y : Nat} {vx vy : Nat} (hx : hexVal (Char.ofNat x) = some vx)
    (hy : hexVal (Char.ofNat y) = some vy) (rest : List Nat) :
    unquoteBytesAux (37 :: x :: y :: rest) = (16 * vx + vy) :: unquoteBytesAux rest := by
  rw [unquoteBytesAux.eq_def]
  simp only [hx, hy]

theorem utf8EncodeChar_lt256 (c : Char) : ∀ b ∈ utf8EncodeChar c, b < 256 := by
  have hv : c.toNat < 55296 ∨ 57343 < c.toNat ∧ c.toNat < 1114112 := c.valid
  intro b hb
  simp only [utf8EncodeChar] at hb
  split_ifs at hb <;> simp only [List.mem_cons, List.mem_singleton,
    List.not_mem_nil, or_false] at hb
  · omega
  · rcases hb with rfl | rfl <;> omega
  · rcases hb with rfl | rfl | rfl <;> omega
  · rcases hb with rfl | rfl | rfl | rfl <;> omega

theorem utf8Encode_lt256 (s : Str) : ∀ b ∈ utf8Encode s, b < 256 := by
  intro b hb
  unfold utf8Encode at hb
  rw [List.mem_flatten] at hb
  obtain ⟨l, hl, hbl⟩ := hb
  rw [List.mem_map] at hl
  obtain ⟨c, _, rfl⟩ := hl
  exact utf8EncodeChar_lt256 c b hbl

theorem hexUpper_toNat_ascii (n : Nat) : (hexUpper n).toNat < 128 :=
  alwaysSafe_ascii (alwaysSafe_hexUpper n)

theorem quoteStep_safe {safe : Str} {b : Nat}
    (h : (decide (b < 128) && (alwaysSafeChar (Char.ofNat b) ||
      safe.any (fun c => c = Char.ofNat b))) = true) :
    quoteStep safe b = [Char.ofNat b] := by
  unfold quoteStep
  rw [if_pos h]

theorem quoteStep_pct {safe : Str} {b : Nat}
    (h : ¬ (decide (b < 128) && (alwaysSafeChar (Char.ofNat b) ||
      safe.any (fun c => c = Char.ofNat b))) = true) :
    quoteStep safe b = pctEncodeByte b := by
  unfold quoteStep
  rw [if_neg h]

theorem unquoteBytes_quoteSteps (safe : Str) (hsafe : safe.all (fun c => c ≠ '%'))
    (bs : List Nat) (h256 : ∀ b ∈ bs, b < 256) :
    unquoteBytesAux (utf8Encode ((bs.map (quoteStep safe)).flatten)) = bs := by
  induction bs with
  | nil => rfl
  | cons b rest ih =>
    have hb : b < 256 := h256 b (by simp)
    have ihr := ih (fun x hx => h256 x (List.mem_cons_of_mem _ hx))
    rw [List.map_cons, List.flatten_cons, utf8Encode_append]
    by_cases hcond : (decide (b < 128) && (alwaysSafeChar (Char.ofNat b) ||
        safe.any (fun c => c = Char.ofNat b))) = true
    · have hcond2 := hcond
      simp only [Bool.and_eq_true, decide_eq_true_eq, Bool.or_eq_true] at hcond2
      have hb37 : b ≠ 37 := by
        intro h37
        rw [h37] at hcond2
        have h37c : Char.ofNat 37 = '%' := by decide
        rw [h37c] at hcond2
        rcases hcond2.2 with hA | hA
        · exact absurd hA (by decide)
        · rw [List.any_eq_true] at hA
          obtain ⟨x, hx, hxe⟩ := hA
          have hxn := List.all_eq_true.mp hsafe x hx
          simp only [decide_eq_true_eq] at hxe hxn
          exact hxn hxe
      rw [quoteStep_safe hcond, utf8Encode_singleton,
        utf8EncodeChar_ascii (by rw [charToNat_ofNat (by omega)]; omega),
        charToNat_ofNat (by omega), List.cons_append, List.nil_append,
        unquoteBytesAux_cons_ne37 hb37, ihr]
    · have hxa : (hexUpper (b / 16)).toNat < 128 := hexUpper_toNat_ascii _
      have hya : (hexUpper (b % 16)).toNat < 128 := hexUpper_toNat_ascii _
      rw [quoteStep_pct hcond]
      rw [show pctEncodeByte b = ['%', hexUpper (b / 16), hexUpper (b % 16)] from rfl]
      rw [utf8Encode_cons, utf8Encode_cons, utf8Encode_cons,
        utf8EncodeChar_ascii (show ('%').toNat < 128 by decide),
        utf8EncodeChar_ascii hxa, utf8EncodeChar_ascii hya,
        show utf8Encode [] = [] from rfl]
      simp only [List.append_nil, List.cons_append, List.nil_append, List.append_assoc]
      rw [show ('%').toNat = 37 from rfl]
      have hx1 : hexVal (Char.ofNat ((hexUpper (b / 16)).toNat)) = some (b / 16) := by
        rw [Char.ofNat_toNat]
        exact hexVal_hexUpper (by omega)
      have hy1 : hexVal (Char.ofNat ((hexUpper (b % 16)).toNat)) = some (b % 16) := by
        rw [Char.ofNat_toNat]
        exact hexVal_hexUpper (by omega)
      rw [unquoteBytesAux_pct hx1 hy1, ihr]
      congr 1
      omega

theorem unquoteBytes_quote (safe : Str) (hsafe : safe.all (fun c => c ≠ '%')) (s : Str) :
    unquoteBytesAux (utf8Encode (pyQuote safe s)) = utf8Encode s := by
  rw [pyQuote_eq_steps]
  exact unquoteBytes_quoteSteps safe hsafe (utf8Encode s) (utf8Encode_lt256 s)

theorem takeWhile_all {p : Char → Bool} {l : Str} (h : l.all p) : l.takeWhile p = l := by
  induction l with
  | nil => rfl
  | cons c rest ih =>
    simp only [List.all_cons, Bool.and_eq_true] at h
    rw [List.takeWhile_cons, if_pos h.1, ih h.2]

theorem dropWhile_all {p : Char → Bool} {l : Str} (h : l.all p) : l.dropWhile p = [] := by
  induction l with
  | nil => rfl
  | cons c rest ih =>
    simp only [List.all_cons, Bool.and_eq_true] at h
    rw [List.dropWhile_cons, if_pos h.1, ih h.2]

theorem unquoteRuns_nil (f : Nat) : unquoteRuns f [] = [] := by cases f <;> rfl

theorem pyUnquote_ascii {t : Str} (h : t.all (fun c => c.toNat < 128)) :
    pyUnquote t = utf8Decode (unquoteBytesAux (utf8Encode t)) := by
  unfold pyUnquote
  split
  · rename_i hany
    cases t with
    | nil => simp at hany
    | cons c rest =>
      have hc : c.toNat < 128 := by
        simp only [List.all_cons, Bool.and_eq_true, decide_eq_true_eq] at h
        exact h.1
      rw [show (c :: rest).length = rest.length + 1 from rfl, unquoteRuns.eq_def]
      simp only
      rw [if_pos hc, takeWhile_all h, dropWhile_all h, unquoteRuns_nil, List.append_nil]
  · rename_i hany
    have hne : ∀ b ∈ utf8Encode t, b ≠ 37 := by
      rw [utf8Encode_ascii h]
      intro b hb
      rw [List.mem_map] at hb
      obtain ⟨c, hc, rfl⟩ := hb
      intro h37
      have hcp : c = '%' := by
        have := charOfNat_eq_of_toNat (n := 37) (c := c) h37
        rw [show Char.ofNat 37 = '%' by decide] at this
        exact this.symm
      rw [List.any_eq_true] at hany
      exact hany ⟨c, hc, by simp [hcp]⟩
    rw [unquoteBytesAux_no37 hne, utf8Decode_encode]

theorem map_ne_id {f : Char → Char} {q : Str} (h : ∀ c ∈ q, f c = c) : q.map f = q := by
  induction q with
  | nil => rfl
  | cons c rest ih =>
    rw [List.map_cons, h c (by simp), ih (fun x hx => h x (List.mem_cons_of_mem _ hx))]

theorem quoted_ascii {safe s : Str} (hsafe : safe.all (fun c => c.toNat < 128)) :
    (pyQuote safe s).all (fun c => c.toNat < 128) := by
  have hq := pyQuote_all safe s
  rw [List.all_eq_true] at hq ⊢
  intro c hc
  have := hq c hc
  simp only [quotedOk, Bool.or_eq_true, decide_eq_true_eq, List.any_eq_true] at this
  rcases this with (ha | ⟨x, hx, hxe⟩) | hp
  · simp only [decide_eq_true_eq]
    exact alwaysSafe_ascii ha
  · simp only [decide_eq_true_eq] at hxe ⊢
    rw [← hxe]
    exact of_decide_eq_true (List.all_eq_true.mp hsafe x hx)
  · simp [hp]

/-- The central percent-coding round trip:
`unquote(quote_plus(s).replace('+', ' ')) = s`, i.e. `unqPlus ∘ pyQuotePlus`
is the identity. -/
theorem unqPlus_quotePlus (s : Str) : unqPlus (pyQuotePlus s) = s := by
  unfold pyQuotePlus unqPlus
  split
  · have hnoplus : (pyQuote [' '] s).all (fun c => c ≠ '+') :=
      all_ne_of_all_class (pyQuote_all [' '] s) '+' (by decide)
    rw [List.map_map]
    rw [map_ne_id (f := (fun c => if c = '+' then ' ' else c) ∘
        (fun c => if c = ' ' then '+' else c))]
    · rw [pyUnquote_ascii (quoted_ascii (by decide)),
        unquoteBytes_quote [' '] (by decide) s, utf8Decode_encode]
    · intro c hc
      have hcp := List.all_eq_true.mp hnoplus c hc
      simp only [decide_eq_true_eq] at hcp
      by_cases hsp : c = ' '
      · simp [Function.comp, hsp]
      · simp [Function.comp, hsp, hcp]
  · have hnoplus : (pyQuote [] s).all (fun c => c ≠ '+') :=
      all_ne_of_all_class (pyQuote_all [] s) '+' (by decide)
    rw [map_ne_id]
    · rw [pyUnquote_ascii (quoted_ascii (by decide)),
        unquoteBytes_quote [] (by decide) s, utf8Decode_encode]
    · intro c hc
      have hcp := List.all_eq_true.mp hnoplus c hc
      simp only [decide_eq_true_eq] at hcp
      simp [hcp]

/-! ## Round-trip lemmas: `urlencode` / `parse_qsl` / `parse_qs` -/

theorem utf8EncodeChar_ne_nil (c : Char) : utf8EncodeChar c ≠ [] := by
  simp only [utf8EncodeChar]
  split_ifs <;> simp

theorem quoteStep_ne_nil {safe : Str} {b : Nat} : quoteStep safe b ≠ [] := by
  unfold quoteStep
  split <;> simp [pctEncodeByte]

theorem pyQuote_ne_nil {safe s : Str} (h : s ≠ []) : pyQuote safe s ≠ [] := by
  cases s with
  | nil => exact absurd rfl h
  | cons c rest =>
    rw [pyQuote_eq_steps, utf8Encode_cons]
    rcases hEC : utf8EncodeChar c with _ | ⟨b, bs2⟩
    · exact absurd hEC (utf8EncodeChar_ne_nil c)
    · rw [List.cons_append, List.map_cons, List.flatten_cons]
      intro hcontra
      rw [List.append_eq_nil] at hcontra
      exact quoteStep_ne_nil hcontra.1

theorem pyQuotePlus_nil : pyQuotePlus [] = [] := rfl

theorem pyQuotePlus_ne_nil {s : Str} (h : s ≠ []) : pyQuotePlus s ≠ [] := by
  unfold pyQuotePlus
  split
  · intro hc
    rw [List.map_eq_nil_iff] at hc
    exact pyQuote_ne_nil h hc
  · exact pyQuote_ne_nil h

theorem pyQuotePlus_eq_nil_iff (s : Str) : pyQuotePlus s = [] ↔ s = [] := by
  constructor
  · intro h
    by_contra hs
    exact pyQuotePlus_ne_nil hs h
  · intro h
    rw [h, pyQuotePlus_nil]

theorem unquoteBytesAux_ne_nil {bs : List Nat} (h : bs ≠ []) : unquoteBytesAux bs ≠ [] := by
  rcases bs with _ | ⟨b, rest⟩
  · exact absurd rfl h
  · rw [unquoteBytesAux.eq_def]
    split
    · rename_i heq
      simp at heq
    · split <;> simp
    · simp

theorem utf8Decode_ne_nil {bs : List Nat} (h : bs ≠ []) : utf8Decode bs ≠ [] := by
  rcases bs with _ | ⟨b, rest⟩
  · exact absurd rfl h
  · rw [utf8Decode.eq_def]
    simp only
    split_ifs <;> try simp
    all_goals (split <;> try simp)
    all_goals (split_ifs <;> try simp)
    all_goals (split <;> try simp)
    all_goals (split_ifs <;> try simp)
    all_goals (split <;> try simp)
    all_goals (split_ifs <;> simp)

theorem utf8Encode_ne_nil {s : Str} (h : s ≠ []) : utf8Encode s ≠ [] := by
  cases s with
  | nil => exact absurd rfl h
  | cons c rest =>
    rw [utf8Encode_cons]
    rcases hEC : utf8EncodeChar c with _ | ⟨b, bs2⟩
    · exact absurd hEC (utf8EncodeChar_ne_nil c)
    · simp

theorem unqPlus_nil : unqPlus [] = [] := rfl

theorem unqPlus_ne_nil {s : Str} (h : s ≠ []) : unqPlus s ≠ [] := by
  unfold unqPlus pyUnquote
  have hmapne : s.map (fun c => if c = '+' then ' ' else c) ≠ [] := by
    intro hc
    rw [List.map_eq_nil_iff] at hc
    exact h hc
  split
  · rcases hm : s.map (fun c => if c = '+' then ' ' else c) with _ | ⟨c, rest⟩
    · exact absurd hm hmapne
    · rw [show (c :: rest).length = rest.length + 1 from rfl, unquoteRuns.eq_def]
      simp only
      split
      · intro hc
        rw [List.append_eq_nil] at hc
        refine utf8Decode_ne_nil (unquoteBytesAux_ne_nil (utf8Encode_ne_nil ?_)) hc.1
        rename_i hascii
        simp [List.takeWhile_cons, hascii]
      · simp
  · exact hmapne

theorem unqPlus_eq_nil_iff (s : Str) : unqPlus s = [] ↔ s = [] := by
  constructor
  · intro h
    by_contra hs
    exact unqPlus_ne_nil hs h
  · intro h
    rw [h, unqPlus_nil]

/-- All (name, value) pairs of a `str → list[str]` mapping, in order. -/
def pairsOf (m : List (Str × List Str)) : List (Str × Str) :=
  (m.map (fun kv => kv.2.map (fun v => (kv.1, v)))).flatten

/-- The `k=v` encoding of one pair inside `urlencode`. -/
def encodePair (p : Str × Str) : Str := pyQuotePlus p.1 ++ '=' :: pyQuotePlus p.2

theorem pyUrlencode_eq_pairs (m : List (Str × List Str)) :
    pyUrlencode m = List.intercalate ['&'] ((pairsOf m).map encodePair) := by
  unfold pyUrlencode pairsOf
  congr 1
  rw [List.map_flatten, List.map_map]
  congr 1
  apply List.map_congr_left
  intro kv _
  simp [Function.comp, List.map_map, encodePair]

theorem takeWhile_append_all {p : Char → Bool} {l : Str} (m : Str) (h : l.all p) :
    (l ++ m).takeWhile p = l ++ m.takeWhile p := by
  induction l with
  | nil => simp
  | cons c rest ih =>
    simp only [List.all_cons, Bool.and_eq_true] at h
    rw [List.cons_append, List.takeWhile_cons, if_pos h.1, ih h.2, List.cons_append]

theorem dropWhile_append_all {p : Char → Bool} {l : Str} (m : Str) (h : l.all p) :
    (l ++ m).dropWhile p = m.dropWhile p := by
  induction l with
  | nil => simp
  | cons c rest ih =>
    simp only [List.all_cons, Bool.and_eq_true] at h
    rw [List.cons_append, List.dropWhile_cons, if_pos h.1, ih h.2]

theorem splitFirstEq_encodePair (n v : Str) :
    splitFirstEq (encodePair (n, v)) = some (pyQuotePlus n, pyQuotePlus v) := by
  have hne : (pyQuotePlus n).all (fun c => c ≠ '=') :=
    all_ne_of_all_class (pyQuotePlus_all n) '=' (by decide)
  unfold splitFirstEq encodePair
  rw [if_pos (by simp)]
  have hne2 : (pyQuotePlus n).all (fun c => decide ¬(c = '=')) := by
    simpa using hne
  rw [takeWhile_append_all _ hne2, dropWhile_append_all _ hne2]
  simp

theorem encodePair_no_amp (p : Str × Str) : '&' ∉ encodePair p := by
  have h1 : (pyQuotePlus p.1).all (fun c => c ≠ '&') :=
    all_ne_of_all_class (pyQuotePlus_all p.1) '&' (by decide)
  have h2 : (pyQuotePlus p.2).all (fun c => c ≠ '&') :=
    all_ne_of_all_class (pyQuotePlus_all p.2) '&' (by decide)
  rw [List.all_eq_true] at h1 h2
  intro hmem
  unfold encodePair at hmem
  rw [List.mem_append, List.mem_cons] at hmem
  rcases hmem with hm | hm | hm
  · have := h1 _ hm
    simp at this
  · exact absurd hm.symm (by decide)
  · have := h2 _ hm
    simp at this

theorem encodePair_ne_nil (p : Str × Str) : encodePair p ≠ [] := by
  unfold encodePair
  simp

theorem pyParseQsl_urlencode (kb : Bool) (m : List (Str × List Str)) :
    pyParseQsl kb (pyUrlencode m) =
      (pairsOf m).filterMap (fun p => if p.2 ≠ [] ∨ kb = true then some p else none) := by
  rw [pyUrlencode_eq_pairs]
  by_cases hnil : pairsOf m = []
  · rw [hnil]
    rfl
  · have hnonnil : (pairsOf m).map encodePair ≠ [] := by
      simpa [List.map_eq_nil_iff] using hnil
    have hnoamp : ∀ l ∈ (pairsOf m).map encodePair, '&' ∉ l := by
      intro l hl
      rw [List.mem_map] at hl
      obtain ⟨p, _, rfl⟩ := hl
      exact encodePair_no_amp p
    have hsplit := List.splitOn_intercalate ((pairsOf m).map encodePair) '&' hnoamp hnonnil
    unfold pyParseQsl
    rw [if_neg ?hqs]
    case hqs =>
      intro hqs
      rw [hqs] at hsplit
      have hre : ([] : Str).splitOn '&' = [[]] := rfl
      rw [hre] at hsplit
      have hmem : ([] : Str) ∈ (pairsOf m).map encodePair := by rw [← hsplit]; simp
      rw [List.mem_map] at hmem
      obtain ⟨p, _, hp⟩ := hmem
      exact encodePair_ne_nil p hp
    rw [hsplit, List.filterMap_map]
    apply List.filterMap_congr
    intro p _
    simp only [Function.comp]
    rw [if_neg (by simp [encodePair_ne_nil p])]
    rcases p with ⟨n, v⟩
    rw [splitFirstEq_encodePair]
    simp only
    by_cases hv : v = []
    · subst hv
      rw [pyQuotePlus_nil]
      by_cases hkb : kb = true
      · rw [if_pos (by simp [hkb]), if_pos (Or.inr hkb)]
        rw [unqPlus_quotePlus, unqPlus_nil]
      · rw [if_neg (by simp [hkb]), if_neg (by simp [hkb])]
    · have hqv : pyQuotePlus v ≠ [] := pyQuotePlus_ne_nil hv
      rw [if_pos (Or.inl hqv), if_pos (Or.inl hv), unqPlus_quotePlus, unqPlus_quotePlus]

theorem pyParseQsl_false_eq_filter (q : Str) :
    pyParseQsl false q = (pyParseQsl true q).filter (fun p => p.2 ≠ []) := by
  unfold pyParseQsl
  by_cases hq : q = []
  · rw [if_pos hq, if_pos hq]
    rfl
  · rw [if_neg hq, if_neg hq]
    induction q.splitOn '&' with
    | nil => rfl
    | cons item rest ih =>
      rw [List.filterMap_cons, List.filterMap_cons]
      by_cases hit : item = []
      · rw [if_pos hit, if_pos hit]
        exact ih
      · rw [if_neg hit, if_neg hit]
        cases hsp : splitFirstEq item with
        | none =>
          simp only
          have hF : (if (false : Bool) = true then some (unqPlus item, ([] : Str)) else none)
              = none := by simp
          rw [hF]
          simp only
          rw [if_pos True.intro]
          simp only
          rw [List.filter_cons, if_neg (by simp)]
          simp only at ih
          exact ih
        | some nv =>
          obtain ⟨n, v⟩ := nv
          simp only
          by_cases hv : v = []
          · rw [if_neg (by simp [hv]), if_pos (Or.inr True.intro)]
            simp only
            rw [List.filter_cons, if_neg (by simp [hv, unqPlus_nil])]
            simp only at ih
            exact ih
          · rw [if_pos (Or.inl hv), if_pos (Or.inl hv)]
            simp only
            rw [List.filter_cons, if_pos (by simp [unqPlus_ne_nil hv])]
            simp only at ih
            rw [ih]

/-- The keys of a mapping, in order. -/
def keysOf (m : List (Str × List Str)) : List Str := m.map (fun kv => kv.1)

/-- First-match association lookup (Python `m[k]` / `k in m`). -/
def lookupKey (m : List (Str × List Str)) (k : Str) : Option (List Str) :=
  match m with
  | [] => none
  | kv :: rest => if kv.1 = k then some kv.2 else lookupKey rest k

/-- What re-parsing does to a mapping: empty-string values are dropped, and
entries left with no values disappear. -/
def mCleanup (m : List (Str × List Str)) : List (Str × List Str) :=
  m.filterMap (fun kv =>
    if kv.2.filter (fun v => v ≠ []) = [] then none
    else some (kv.1, kv.2.filter (fun v => v ≠ [])))

theorem listMap_id_of {α : Type} {f : α → α} {q : List α} (h : ∀ c ∈ q, f c = c) :
    q.map f = q := by
  induction q with
  | nil => rfl
  | cons c rest ih =>
    rw [List.map_cons, h c (by simp), ih (fun x hx => h x (List.mem_cons_of_mem _ hx))]

theorem qsUpdate_absent {m : List (Str × List Str)} {n : Str} (v : Str)
    (h : ¬ m.any (fun kv => kv.1 = n) = true) : qsUpdate m n v = m ++ [(n, [v])] := by
  unfold qsUpdate
  rw [if_neg h]

theorem qsUpdate_append_last {acc : List (Str × List Str)} {n : Str} (l : List Str) (v : Str)
    (h : ¬ acc.any (fun kv => kv.1 = n) = true) :
    qsUpdate (acc ++ [(n, l)]) n v = acc ++ [(n, l ++ [v])] := by
  unfold qsUpdate
  rw [if_pos (by simp)]
  rw [List.map_append]
  congr 1
  · apply listMap_id_of
    intro kv hkv
    rw [if_neg]
    intro heq
    exact h (List.any_eq_true.mpr ⟨kv, hkv, by simp [heq]⟩)
  · simp

theorem foldl_qsUpdate_group (acc : List (Str × List Str)) (n : Str) (l : List Str)
    (vs : List Str) (h : ¬ acc.any (fun kv => kv.1 = n) = true) :
    (vs.map (fun v => (n, v))).foldl (fun a nv => qsUpdate a nv.1 nv.2) (acc ++ [(n, l)])
      = acc ++ [(n, l ++ vs)] := by
  induction vs generalizing l with
  | nil => simp
  | cons v rest ih =>
    rw [List.map_cons, List.foldl_cons]
    simp only
    rw [qsUpdate_append_last l v h, ih]
    simp

theorem foldl_qsUpdate_pairs (m : List (Str × List Str)) (acc : List (Str × List Str))
    (hnd : (keysOf acc ++ keysOf m).Nodup) :
    ((pairsOf m).filter (fun p => p.2 ≠ [])).foldl (fun a nv => qsUpdate a nv.1 nv.2) acc
      = acc ++ mCleanup m := by
  induction m generalizing acc with
  | nil => simp [pairsOf, mCleanup]
  | cons kv rest ih =>
    obtain ⟨n, vs⟩ := kv
    have hpc : pairsOf ((n, vs) :: rest) = vs.map (fun v => (n, v)) ++ pairsOf rest := by
      simp [pairsOf]
    rw [hpc, List.filter_append]
    have hgrp : (vs.map (fun v => (n, v))).filter (fun p => p.2 ≠ [])
        = (vs.filter (fun v => v ≠ [])).map (fun v => (n, v)) := by
      rw [List.filter_map]
      congr 1
    rw [hgrp, List.foldl_append]
    have hkeys : keysOf ((n, vs) :: rest) = n :: keysOf rest := rfl
    rw [hkeys] at hnd
    have hnacc : ¬ acc.any (fun kv => kv.1 = n) = true := by
      intro hany
      rw [List.any_eq_true] at hany
      obtain ⟨kv0, hkv0, heq⟩ := hany
      simp only [decide_eq_true_eq] at heq
      have hmemacc : n ∈ keysOf acc := by
        rw [← heq]
        exact List.mem_map_of_mem _ hkv0
      exact (List.nodup_append.mp hnd).2.2 hmemacc (by simp)
    by_cases hvs : vs.filter (fun v => v ≠ []) = []
    · rw [hvs]
      simp only [List.map_nil, List.foldl_nil]
      have hsub : List.Sublist (keysOf acc ++ keysOf rest) (keysOf acc ++ n :: keysOf rest) :=
        List.Sublist.append_left (List.sublist_cons_self n (keysOf rest)) _
      rw [ih acc (List.Nodup.sublist hsub hnd)]
      rw [show mCleanup ((n, vs) :: rest) = mCleanup rest from by
        unfold mCleanup
        rw [List.filterMap_cons]
        simp only
        rw [if_pos hvs]]
    · rcases hv0 : vs.filter (fun v => v ≠ []) with _ | ⟨v0, vrest⟩
      · exact absurd hv0 hvs
      · rw [hv0, List.map_cons, List.foldl_cons]
        simp only
        rw [qsUpdate_absent v0 hnacc]
        have hgr := foldl_qsUpdate_group acc n [v0] vrest hnacc
        rw [hgr]
        have hnd2 : (keysOf (acc ++ [(n, v0 :: vrest)]) ++ keysOf rest).Nodup := by
          have hke : keysOf (acc ++ [(n, v0 :: vrest)]) ++ keysOf rest
              = keysOf acc ++ n :: keysOf rest := by
            simp [keysOf]
          rw [hke]
          exact hnd
        have := ih (acc ++ [(n, v0 :: vrest)]) hnd2
        rw [show [v0] ++ vrest = v0 :: vrest from rfl, this]
        rw [show mCleanup ((n, vs) :: rest) = (n, v0 :: vrest) :: mCleanup rest from by
          simp only [mCleanup, List.filterMap_cons, hv0]
          rw [if_neg (by simp)]]
        simp

theorem filterMap_if_eq_filter {α : Type} (p : α → Bool) (l : List α) :
    (l.filterMap fun a => if p a = true then some a else none) = l.filter p := by
  induction l with
  | nil => rfl
  | cons a rest ih =>
    rw [List.filterMap_cons, List.filter_cons]
    by_cases h : p a = true
    · rw [if_pos h, if_pos h, ih]
    · rw [if_neg h, if_neg h, ih]

/-- Re-parsing an encoded mapping with unique keys: `parse_qs(urlencode(m))`
drops empty-string values and value-less entries, and keeps everything else
in order. -/
theorem pyParseQs_urlencode {m : List (Str × List Str)} (hnd : (keysOf m).Nodup) :
    pyParseQs (pyUrlencode m) = mCleanup m := by
  unfold pyParseQs
  rw [pyParseQsl_urlencode]
  have hcongr : ((pairsOf m).filterMap fun p => if p.2 ≠ [] ∨ false = true then some p else none)
      = (pairsOf m).filterMap fun p => if p.2 ≠ [] then some p else none := by
    apply List.filterMap_congr
    intro p _
    by_cases h : p.2 = []
    · rw [if_neg (by simp [h]), if_neg (by simp [h])]
    · rw [if_pos (Or.inl h), if_pos h]
  rw [hcongr]
  have hff : ((pairsOf m).filterMap fun p => if p.2 ≠ [] then some p else none)
      = (pairsOf m).filter (fun p => p.2 ≠ []) := by
    rw [← filterMap_if_eq_filter (fun p => p.2 ≠ []) (pairsOf m)]
    apply List.filterMap_congr
    intro p _
    by_cases h : p.2 = []
    · rw [if_neg (by simp [h]), if_neg (by simp [h])]
    · rw [if_pos h, if_pos (by simp [h])]
  rw [hff]
  have := foldl_qsUpdate_pairs m [] (by simpa [keysOf] using hnd)
  simpa using this

/-! ## The textual query component of an output URL -/

/-- The textual query component of a URL string: what `urlsplit` isolates
after the first `'?'` once the fragment has been cut at the first `'#'`. -/
def textQuery (s : Str) : Str := (splitFragQuery s).2.1

theorem all_imp {p q : Char → Bool} {s : Str} (h : s.all p)
    (hpq : ∀ c, p c = true → q c = true) : s.all q := by
  rw [List.all_eq_true] at h ⊢
  intro c hc
  exact hpq c (h c hc)

theorem ne_of_class {p : Char → Bool} {c c0 : Char} (h : p c = true) (h0 : p c0 = false) :
    c ≠ c0 := by
  intro heq
  rw [heq, h0] at h
  exact absurd h (by simp)

theorem intercalate_all {p : Char → Bool} (sep : Str) (hsep : sep.all p) (l : List Str)
    (h : ∀ x ∈ l, x.all p) : (List.intercalate sep l).all p := by
  induction l with
  | nil => simp [List.intercalate]
  | cons x xs ih =>
    cases xs with
    | nil =>
      have hx : List.intercalate sep [x] = x := by simp [List.intercalate]
      rw [hx]
      exact h x (by simp)
    | cons y ys =>
      have hstep : List.intercalate sep (x :: y :: ys)
          = x ++ (sep ++ List.intercalate sep (y :: ys)) := by
        rw [show List.intercalate sep (x :: y :: ys)
            = (List.intersperse sep (x :: y :: ys)).flatten from rfl]
        rw [show List.intersperse sep (x :: y :: ys)
            = x :: sep :: List.intersperse sep (y :: ys) from rfl]
        rw [List.flatten_cons, List.flatten_cons]
        rfl
      rw [hstep]
      simp only [List.all_append, Bool.and_eq_true]
      exact ⟨h x (by simp), hsep, ih (fun z hz => h z (List.mem_cons_of_mem _ hz))⟩

/-- Characters that can occur in `urlencode` output. -/
def urlencodeOk (c : Char) : Bool := quotePlusOk c || c = '&' || c = '='

theorem pyUrlencode_all (m : List (Str × List Str)) : (pyUrlencode m).all urlencodeOk := by
  rw [pyUrlencode_eq_pairs]
  apply intercalate_all
  · decide
  · intro x hx
    rw [List.mem_map] at hx
    obtain ⟨pr, _, rfl⟩ := hx
    unfold encodePair
    simp only [List.all_append, List.all_cons, Bool.and_eq_true]
    refine ⟨?_, ?_, ?_⟩
    · exact all_imp (pyQuotePlus_all pr.1) (fun c h => by simp [urlencodeOk, h])
    · decide
    · exact all_imp (pyQuotePlus_all pr.2) (fun c h => by simp [urlencodeOk, h])

theorem all_ne_of_any_false {l : Str} {a : Char} (h : l.any (fun c => c = a) = false) :
    ∀ c ∈ l, c ≠ a := by
  intro c hc heq
  have hany : l.any (fun c => c = a) = true := List.any_eq_true.mpr ⟨c, hc, by simp [heq]⟩
  rw [h] at hany
  exact absurd hany (by simp)

theorem any_false_of_all_ne {l : Str} {a : Char} (h : ∀ c ∈ l, c ≠ a) :
    l.any (fun c => c = a) = false := by
  rw [Bool.eq_false_iff]
  intro hany
  obtain ⟨c, hc, heq⟩ := List.any_eq_true.mp hany
  exact h c hc (by simpa using heq)

theorem all_ne_bool {l : Str} {a : Char} (h : ∀ c ∈ l, c ≠ a) :
    l.all (fun c => c ≠ a) = true :=
  List.all_eq_true.mpr (fun c hc => by simp [h c hc])

theorem splitFragQuery_no_marks {u : Str} (h1 : ∀ c ∈ u, c ≠ '#') (h2 : ∀ c ∈ u, c ≠ '?') :
    splitFragQuery u = (u, [], []) := by
  simp only [splitFragQuery]
  rw [any_false_of_all_ne h1]
  simp only [Bool.false_eq_true, if_false]
  rw [any_false_of_all_ne h2]
  simp only [Bool.false_eq_true, if_false]

theorem splitFragQuery_query_form (pre query frag : Str)
    (hpre : ∀ c ∈ pre, c ≠ '#' ∧ c ≠ '?')
    (hq : ∀ c ∈ query, c ≠ '#') :
    (splitFragQuery ((pre ++ '?' :: query)
      ++ (if frag ≠ [] then '#' :: frag else []))).2.1 = query := by
  have hA : ∀ c ∈ pre ++ '?' :: query, c ≠ '#' := by
    intro c hc
    rcases List.mem_append.mp hc with hc | hc
    · exact (hpre c hc).1
    · rcases List.mem_cons.mp hc with rfl | hc
      · decide
      · exact hq c hc
  have hq4 : (pre ++ '?' :: query).any (fun c => c = '?') = true :=
    List.any_eq_true.mpr ⟨'?', by simp, by simp⟩
  have hdw : (pre ++ '?' :: query).dropWhile (fun c => c ≠ '?') = '?' :: query := by
    rw [dropWhile_append_all _ (all_ne_bool (fun c hc => (hpre c hc).2)), List.dropWhile_cons,
      if_neg (by simp)]
  by_cases hf : frag = []
  · subst hf
    rw [show (if ([] : Str) ≠ [] then '#' :: ([] : Str) else []) = [] from by simp,
      List.append_nil]
    have h1 : (pre ++ '?' :: query).any (fun c => c = '#') = false :=
      any_false_of_all_ne hA
    simp only [splitFragQuery]
    rw [h1]
    simp only [Bool.false_eq_true, if_false]
    rw [hq4]
    simp only [eq_self_iff_true, if_true]
    rw [hdw]
    rfl
  · rw [if_pos hf]
    have h1 : ((pre ++ '?' :: query) ++ '#' :: frag).any (fun c => c = '#') = true :=
      List.any_eq_true.mpr ⟨'#', by simp, by simp⟩
    have hu4 : ((pre ++ '?' :: query) ++ '#' :: frag).takeWhile (fun c => c ≠ '#')
        = pre ++ '?' :: query := by
      rw [takeWhile_append_all _ (all_ne_bool hA), List.takeWhile_cons,
        if_neg (by simp), List.append_nil]
    simp only [splitFragQuery]
    rw [h1]
    simp only [eq_self_iff_true, if_true]
    rw [hu4, hq4]
    simp only [eq_self_iff_true, if_true]
    rw [hdw]
    rfl

theorem unsplitBase_no_marks (scheme netloc url0 : Str)
    (hs : ∀ c ∈ scheme, c ≠ '#' ∧ c ≠ '?')
    (hn : ∀ c ∈ netloc, c ≠ '#' ∧ c ≠ '?')
    (hu : ∀ c ∈ url0, c ≠ '#' ∧ c ≠ '?') :
    ∀ c ∈ unsplitBase scheme netloc url0, c ≠ '#' ∧ c ≠ '?' := by
  have hnp : ∀ c ∈ unsplitNetlocPart scheme netloc url0, c ≠ '#' ∧ c ≠ '?' := by
    intro c hc
    unfold unsplitNetlocPart at hc
    split at hc
    · rcases List.mem_cons.mp hc with rfl | hc
      · decide
      · rcases List.mem_cons.mp hc with rfl | hc
        · decide
        · rcases List.mem_append.mp hc with hc | hc
          · exact hn c hc
          · split at hc
            · rcases List.mem_cons.mp hc with rfl | hc
              · decide
              · exact hu c hc
            · exact hu c hc
    · exact hu c hc
  intro c hc
  unfold unsplitBase at hc
  split at hc
  · rcases List.mem_append.mp hc with hc | hc
    · exact hs c hc
    · rcases List.mem_cons.mp hc with rfl | hc
      · decide
      · exact hnp c hc
  · exact hnp c hc

theorem textQuery_urlunsplit (scheme netloc url0 query frag : Str)
    (hs : ∀ c ∈ scheme, c ≠ '#' ∧ c ≠ '?')
    (hn : ∀ c ∈ netloc, c ≠ '#' ∧ c ≠ '?')
    (hu : ∀ c ∈ url0, c ≠ '#' ∧ c ≠ '?')
    (hq : ∀ c ∈ query, c ≠ '#') :
    textQuery (pyUrlunsplit scheme netloc url0 query frag) = query := by
  have hbase := unsplitBase_no_marks scheme netloc url0 hs hn hu
  by_cases hq0 : query = []
  · subst hq0
    simp only [textQuery, pyUrlunsplit]
    rw [show (if ([] : Str) ≠ [] then unsplitBase scheme netloc url0 ++ '?' :: ([] : Str)
        else unsplitBase scheme netloc url0) = unsplitBase scheme netloc url0 from by simp]
    by_cases hf : frag = []
    · rw [if_neg (by simp [hf])]
      rw [splitFragQuery_no_marks (fun c hc => (hbase c hc).1) (fun c hc => (hbase c hc).2)]
    · rw [if_pos hf]
      have h1 : (unsplitBase scheme netloc url0 ++ '#' :: frag).any (fun c => c = '#') = true :=
        List.any_eq_true.mpr ⟨'#', by simp, by simp⟩
      have htw : (unsplitBase scheme netloc url0 ++ '#' :: frag).takeWhile (fun c => c ≠ '#')
          = unsplitBase scheme netloc url0 := by
        rw [takeWhile_append_all _ (all_ne_bool (fun c hc => (hbase c hc).1)),
          List.takeWhile_cons, if_neg (by simp), List.append_nil]
      have h2 : (unsplitBase scheme netloc url0).any (fun c => c = '?') = false :=
        any_false_of_all_ne (fun c hc => (hbase c hc).2)
      simp only [splitFragQuery]
      rw [h1]
      simp only [eq_self_iff_true, if_true]
      rw [htw, h2]
      simp only [Bool.false_eq_true, if_false]
  · simp only [textQuery, pyUrlunsplit]
    rw [if_pos hq0]
    have hform : (if frag ≠ [] then (unsplitBase scheme netloc url0 ++ '?' :: query) ++ '#' :: frag
        else unsplitBase scheme netloc url0 ++ '?' :: query)
        = (unsplitBase scheme netloc url0 ++ '?' :: query)
          ++ (if frag ≠ [] then '#' :: frag else []) := by
      by_cases hf : frag = []
      · simp [hf]
      · simp [hf]
    rw [hform]
    exact splitFragQuery_query_form _ query frag hbase hq

theorem charLe_of_toNat {a b : Char} (h : a.toNat ≤ b.toNat) : a ≤ b := h

theorem asciiLower_cases (c : Char) :
    (isAsciiUpper c = true ∧ (asciiLower c).toNat = c.toNat + 32) ∨
    (isAsciiUpper c = false ∧ asciiLower c = c) := by
  unfold asciiLower
  by_cases h : isAsciiUpper c = true
  · left
    refine ⟨h, ?_⟩
    have hc90 : c.toNat ≤ 90 := by
      simp only [isAsciiUpper, Bool.and_eq_true, decide_eq_true_eq] at h
      exact charLe_toNat h.2
    rw [if_pos h]
    exact charToNat_ofNat (Or.inl (by omega))
  · right
    exact ⟨Bool.eq_false_iff.mpr h, if_neg h⟩

theorem asciiLower_schemeChar {c : Char} (h : schemeChar c = true) :
    schemeChar (asciiLower c) = true := by
  rcases asciiLower_cases c with ⟨hu, ht⟩ | ⟨_, he⟩
  · have h1 : 65 ≤ c.toNat ∧ c.toNat ≤ 90 := by
      simp only [isAsciiUpper, Bool.and_eq_true, decide_eq_true_eq] at hu
      exact ⟨charLe_toNat hu.1, charLe_toNat hu.2⟩
    have hlow : isAsciiLower (asciiLower c) = true := by
      simp only [isAsciiLower, Bool.and_eq_true, decide_eq_true_eq]
      constructor
      · exact charLe_of_toNat (by rw [ht, show ('a').toNat = 97 from rfl]; omega)
      · exact charLe_of_toNat (by rw [ht, show ('z').toNat = 122 from rfl]; omega)
    simp [schemeChar, isAsciiAlpha, hlow]
  · rw [he]
    exact h

theorem splitScheme_fst_chars (u : Str) : ∀ c ∈ (splitScheme u).1, schemeChar c = true := by
  intro c hc
  simp only [splitScheme] at hc
  split at hc
  next h =>
    obtain ⟨_, _, _, h4⟩ := h
    simp only at hc
    rw [List.mem_map] at hc
    obtain ⟨d, hd, rfl⟩ := hc
    exact asciiLower_schemeChar (List.all_eq_true.mp h4 d hd)
  next =>
    simp only at hc
    exact absurd hc (List.not_mem_nil c)

theorem splitFragQuery_props (u : Str) :
    (∀ c ∈ (splitFragQuery u).1, c ≠ '#' ∧ c ≠ '?') ∧
    (∀ c ∈ (splitFragQuery u).2.1, c ≠ '#') := by
  constructor
  · intro c hc
    simp only [splitFragQuery] at hc
    split at hc
    · split at hc
      · refine ⟨?_, ?_⟩
        · have hmem : c ∈ u.takeWhile (fun c => c ≠ '#') :=
            (List.takeWhile_sublist _).subset hc
          simpa using List.mem_takeWhile_imp hmem
        · simpa using List.mem_takeWhile_imp hc
      · next h2 =>
        refine ⟨?_, ?_⟩
        · simpa using List.mem_takeWhile_imp hc
        · exact all_ne_of_any_false (Bool.eq_false_iff.mpr h2) c hc
    · next h1 =>
      split at hc
      · refine ⟨?_, ?_⟩
        · exact all_ne_of_any_false (Bool.eq_false_iff.mpr h1) c
            ((List.takeWhile_sublist _).subset hc)
        · simpa using List.mem_takeWhile_imp hc
      · next h2 =>
        exact ⟨all_ne_of_any_false (Bool.eq_false_iff.mpr h1) c hc,
          all_ne_of_any_false (Bool.eq_false_iff.mpr h2) c hc⟩
  · intro c hc
    simp only [splitFragQuery] at hc
    split at hc
    · split at hc
      · have hmem : c ∈ u.takeWhile (fun c => c ≠ '#') :=
          (List.dropWhile_sublist _).subset ((List.drop_sublist _ _).subset hc)
        simpa using List.mem_takeWhile_imp hmem
      · exact absurd hc (List.not_mem_nil c)
    · next h1 =>
      split at hc
      · exact all_ne_of_any_false (Bool.eq_false_iff.mpr h1) c
          ((List.dropWhile_sublist _).subset ((List.drop_sublist _ _).subset hc))
      · exact absurd hc (List.not_mem_nil c)

theorem splitParams_subset (p : Str) :
    (∀ c ∈ (splitParams p).1, c ∈ p) ∧ (∀ c ∈ (splitParams p).2, c ∈ p) := by
  have htl : ∀ c ∈ (p.reverse.takeWhile (fun c => c ≠ '/')).reverse, c ∈ p := by
    intro c hc
    rw [List.mem_reverse] at hc
    have hrev := (List.takeWhile_sublist _).subset hc
    rw [List.mem_reverse] at hrev
    exact hrev
  constructor
  · intro c hc
    simp only [splitParams] at hc
    split at hc
    · split at hc
      · simp only at hc
        rcases List.mem_append.mp hc with hc | hc
        · exact (List.take_sublist _ _).subset hc
        · exact htl c ((List.takeWhile_sublist _).subset hc)
      · simp only at hc
        exact hc
    · split at hc
      · simp only at hc
        exact (List.takeWhile_sublist _).subset hc
      · simp only at hc
        exact (List.dropLast_sublist _).subset hc
  · intro c hc
    simp only [splitParams] at hc
    split at hc
    · split at hc
      · simp only at hc
        exact htl c ((List.dropWhile_sublist _).subset ((List.drop_sublist _ _).subset hc))
      · simp only at hc
        exact absurd hc (List.not_mem_nil c)
    · split at hc
      · simp only at hc
        exact (List.dropWhile_sublist _).subset ((List.drop_sublist _ _).subset hc)
      · simp only at hc
        exact hc

theorem pyUrlsplit_inv {url : Str} {s : SplitResult} (h : pyUrlsplit url = some s) :
    ∃ u2 : Str,
      splitScheme ((url.dropWhile isC0Space).filter (fun c => !isUnsafeUrlByte c))
        = (s.scheme, u2) ∧
      ((u2.take 2 = ['/', '/'] ∧
          s.netloc = (u2.drop 2).takeWhile (fun c => !netlocDelim c) ∧
          netlocBracketsOk s.netloc = true ∧
          splitFragQuery ((u2.drop 2).dropWhile (fun c => !netlocDelim c))
            = (s.path, s.query, s.fragment)) ∨
        (¬ u2.take 2 = ['/', '/'] ∧ s.netloc = [] ∧
          splitFragQuery u2 = (s.path, s.query, s.fragment))) := by
  simp only [pyUrlsplit] at h
  split at h
  next htake =>
    split at h
    next hcheck =>
      rw [Option.some.injEq] at h
      subst h
      rw [Bool.and_eq_true] at hcheck
      exact ⟨_, rfl, Or.inl ⟨htake, rfl, hcheck.1, rfl⟩⟩
    next =>
      exact absurd h (by simp)
  next htake =>
    rw [Option.some.injEq] at h
    subst h
    exact ⟨_, rfl, Or.inr ⟨htake, rfl, rfl⟩⟩

theorem pyUrlsplit_no_marks {url : Str} {s : SplitResult} (h : pyUrlsplit url = some s) :
    (∀ c ∈ s.scheme, c ≠ '#' ∧ c ≠ '?') ∧ (∀ c ∈ s.netloc, c ≠ '#' ∧ c ≠ '?') ∧
    (∀ c ∈ s.path, c ≠ '#' ∧ c ≠ '?') ∧ (∀ c ∈ s.query, c ≠ '#') := by
  obtain ⟨u2, hss, hbr⟩ := pyUrlsplit_inv h
  refine ⟨?_, ?_, ?_, ?_⟩
  · intro c hc
    have hsc : schemeChar c = true := by
      apply splitScheme_fst_chars ((url.dropWhile isC0Space).filter (fun c => !isUnsafeUrlByte c))
      rw [hss]
      exact hc
    exact ⟨ne_of_class hsc (by decide), ne_of_class hsc (by decide)⟩
  · intro c hc
    rcases hbr with ⟨_, hnl, _, _⟩ | ⟨_, hnl, _⟩
    · rw [hnl] at hc
      have hnd : netlocDelim c = false := by simpa using List.mem_takeWhile_imp hc
      simp only [netlocDelim, Bool.or_eq_false_iff, decide_eq_false_iff_not] at hnd
      exact ⟨hnd.2, hnd.1.2⟩
    · rw [hnl] at hc
      exact absurd hc (List.not_mem_nil c)
  · intro c hc
    rcases hbr with ⟨_, _, _, hpqf⟩ | ⟨_, _, hpqf⟩
    · exact (splitFragQuery_props _).1 c (by rw [hpqf]; exact hc)
    · exact (splitFragQuery_props _).1 c (by rw [hpqf]; exact hc)
  · intro c hc
    rcases hbr with ⟨_, _, _, hpqf⟩ | ⟨_, _, hpqf⟩
    · exact (splitFragQuery_props _).2 c (by rw [hpqf]; exact hc)
    · exact (splitFragQuery_props _).2 c (by rw [hpqf]; exact hc)

theorem pyUrlparse_no_marks {url : Str} {p : ParseResult} (h : pyUrlparse url = some p) :
    (∀ c ∈ p.scheme, c ≠ '#' ∧ c ≠ '?') ∧ (∀ c ∈ p.netloc, c ≠ '#' ∧ c ≠ '?') ∧
    (∀ c ∈ p.path, c ≠ '#' ∧ c ≠ '?') ∧ (∀ c ∈ p.params, c ≠ '#' ∧ c ≠ '?') ∧
    (∀ c ∈ p.query, c ≠ '#') := by
  unfold pyUrlparse at h
  rcases hsp : pyUrlsplit url with _ | s
  · rw [hsp] at h
    exact absurd h (by simp)
  · rw [hsp] at h
    obtain ⟨hsc, hnl, hpa, hq⟩ := pyUrlsplit_no_marks hsp
    simp only at h
    split at h
    · rw [Option.some.injEq] at h
      subst h
      refine ⟨hsc, hnl, ?_, ?_, hq⟩
      · intro c hc
        exact hpa c ((splitParams_subset s.path).1 c hc)
      · intro c hc
        exact hpa c ((splitParams_subset s.path).2 c hc)
    · rw [Option.some.injEq] at h
      subst h
      refine ⟨hsc, hnl, hpa, ?_, hq⟩
      intro c hc
      exact absurd hc (List.not_mem_nil c)

theorem textQuery_redact {url : Str} {p : ParseResult} (ps : List Str) (tok : Str)
    (hp : pyUrlparse url = some p) :
    textQuery (redact_url_parameters url ps tok)
      = pyUrlencode (redactQueryParams (pyParseQs p.query) ps tok) := by
  unfold redact_url_parameters
  rw [hp]
  unfold redactSuccess pyUrlunparse
  obtain ⟨hs, hn, hpa, hpr, _⟩ := pyUrlparse_no_marks hp
  apply textQuery_urlunsplit
  · exact hs
  · exact hn
  · intro c hc
    split at hc
    · rcases List.mem_append.mp hc with hc | hc
      · exact hpa c hc
      · rcases List.mem_cons.mp hc with rfl | hc
        · decide
        · exact hpr c hc
    · exact hpa c hc
  · intro c hc
    have hcl := List.all_eq_true.mp (pyUrlencode_all _) c hc
    exact ne_of_class hcl (by decide)

/-! ## The redaction loop as a pointwise map -/

theorem redactQueryParams_eq_map (m : List (Str × List Str)) (ps : List Str) (tok : Str) :
    redactQueryParams m ps tok
      = m.map (fun kv => if ps.any (fun x => x = kv.1) then (kv.1, [tok]) else kv) := by
  induction ps generalizing m with
  | nil =>
    simp only [List.any_nil, Bool.false_eq_true, if_false]
    rw [show redactQueryParams m [] tok = m from rfl]
    exact (listMap_id_of (fun kv _ => rfl)).symm
  | cons p rest ih =>
    have hstep : redactQueryParams m (p :: rest) tok
        = redactQueryParams (if m.any (fun kv => kv.1 = p)
            then m.map (fun kv => if kv.1 = p then (kv.1, [tok]) else kv) else m) rest tok := rfl
    rw [hstep]
    have hone : (if m.any (fun kv => kv.1 = p)
          then m.map (fun kv => if kv.1 = p then (kv.1, [tok]) else kv) else m)
        = m.map (fun kv => if kv.1 = p then (kv.1, [tok]) else kv) := by
      split
      · rfl
      next hany =>
        refine (listMap_id_of ?_).symm
        intro kv hkv
        rw [if_neg]
        intro hk
        exact hany (List.any_eq_true.mpr ⟨kv, hkv, by simp [hk]⟩)
    rw [hone, ih, List.map_map]
    apply List.map_congr_left
    intro kv _
    simp only [Function.comp]
    by_cases hk : kv.1 = p
    · have hite : (if kv.1 = p then (kv.1, [tok]) else kv) = (kv.1, [tok]) := if_pos hk
      simp only [hite]
      rw [ite_self]
      have hcond : (p :: rest).any (fun x => x = kv.1) = true :=
        List.any_eq_true.mpr ⟨p, by simp, by simp [hk]⟩
      rw [hcond]
      simp
    · have hite : (if kv.1 = p then (kv.1, [tok]) else kv) = kv := if_neg hk
      simp only [hite]
      have hcond : (p :: rest).any (fun x => x = kv.1) = rest.any (fun x => x = kv.1) := by
        rw [List.any_cons]
        have hpf : (p = kv.1) = False := by
          simp only [eq_iff_iff, iff_false]
          intro he
          exact hk he.symm
        simp [hpf]
      rw [hcond]

theorem keysOf_redact (m : List (Str × List Str)) (ps : List Str) (tok : Str) :
    keysOf (redactQueryParams m ps tok) = keysOf m := by
  rw [redactQueryParams_eq_map]
  unfold keysOf
  rw [List.map_map]
  apply List.map_congr_left
  intro kv _
  simp only [Function.comp]
  split <;> rfl

theorem lookupKey_redact (m : List (Str × List Str)) (ps : List Str) (tok : Str) (k : Str) :
    lookupKey (redactQueryParams m ps tok) k
      = if ps.any (fun x => x = k) then (lookupKey m k).map (fun _ => [tok])
        else lookupKey m k := by
  rw [redactQueryParams_eq_map]
  induction m with
  | nil =>
    simp only [List.map_nil]
    split <;> rfl
  | cons kv rest ih =>
    rw [List.map_cons]
    by_cases hk : kv.1 = k
    · by_cases hp : ps.any (fun x => x = kv.1) = true
      · have hp' : ps.any (fun x => x = k) = true := by rw [← hk]; exact hp
        have hite : (if ps.any (fun x => x = kv.1) then ((kv.1 : Str), [tok]) else kv)
            = (kv.1, [tok]) := if_pos hp
        simp only [hite]
        simp only [lookupKey]
        rw [if_pos hk, if_pos hk, if_pos hp']
        rfl
      · have hp' : ¬ ps.any (fun x => x = k) = true := by rw [← hk]; exact hp
        have hite : (if ps.any (fun x => x = kv.1) then ((kv.1 : Str), [tok]) else kv)
            = kv := if_neg hp
        simp only [hite]
        simp only [lookupKey]
        rw [if_pos hk, if_pos hk, if_neg hp']
    · have hkey : (if ps.any (fun x => x = kv.1) then ((kv.1 : Str), [tok]) else kv).1
          = kv.1 := by split <;> rfl
      simp only [lookupKey, hkey]
      rw [if_neg hk, if_neg hk, ih]

theorem lookupKey_isSome_of_any {m : List (Str × List Str)} {k : Str}
    (h : m.any (fun kv => kv.1 = k) = true) : ∃ vs, lookupKey m k = some vs := by
  induction m with
  | nil => simp at h
  | cons kv rest ih =>
    by_cases hk : kv.1 = k
    · exact ⟨kv.2, by simp [lookupKey, hk]⟩
    · have hrest : rest.any (fun kv => kv.1 = k) = true := by
        rw [List.any_cons] at h
        rcases Bool.or_eq_true_iff.mp h with h1 | h1
        · exact absurd (by simpa using h1) hk
        · exact h1
      obtain ⟨vs, hvs⟩ := ih hrest
      exact ⟨vs, by simp [lookupKey, hk, hvs]⟩

theorem qsUpdate_inv {m : List (Str × List Str)} {n v : Str}
    (h1 : (keysOf m).Nodup) (h2 : ∀ kv ∈ m, kv.2 ≠ [] ∧ ∀ w ∈ kv.2, w ≠ [])
    (hv : v ≠ []) :
    (keysOf (qsUpdate m n v)).Nodup ∧
    ∀ kv ∈ qsUpdate m n v, kv.2 ≠ [] ∧ ∀ w ∈ kv.2, w ≠ [] := by
  unfold qsUpdate
  split
  · constructor
    · have hkeys : keysOf (m.map (fun kv => if kv.1 = n then (kv.1, kv.2 ++ [v]) else kv))
          = keysOf m := by
        unfold keysOf
        rw [List.map_map]
        apply List.map_congr_left
        intro kv _
        simp only [Function.comp]
        split <;> rfl
      rw [hkeys]
      exact h1
    · intro kv hkv
      rw [List.mem_map] at hkv
      obtain ⟨kv0, hkv0, rfl⟩ := hkv
      by_cases hk : kv0.1 = n
      · have hite : (if kv0.1 = n then ((kv0.1 : Str), kv0.2 ++ [v]) else kv0)
            = (kv0.1, kv0.2 ++ [v]) := if_pos hk
        rw [hite]
        refine ⟨by simp, ?_⟩
        intro w hw
        simp only at hw
        rcases List.mem_append.mp hw with hw | hw
        · exact (h2 kv0 hkv0).2 w hw
        · rw [List.mem_singleton] at hw
          subst hw
          exact hv
      · have hite : (if kv0.1 = n then ((kv0.1 : Str), kv0.2 ++ [v]) else kv0) = kv0 :=
          if_neg hk
        rw [hite]
        exact h2 kv0 hkv0
  · next hany =>
    constructor
    · have hkeys : keysOf (m ++ [(n, [v])]) = keysOf m ++ [n] := by
        unfold keysOf
        rw [List.map_append]
        rfl
      rw [hkeys]
      refine List.nodup_append.mpr ⟨h1, List.nodup_singleton n, ?_⟩
      intro x hx hx2
      rw [List.mem_singleton] at hx2
      subst hx2
      apply hany
      rw [List.any_eq_true]
      unfold keysOf at hx
      rw [List.mem_map] at hx
      obtain ⟨kv, hkv, hk⟩ := hx
      exact ⟨kv, hkv, by simp [hk]⟩
    · intro kv hkv
      rcases List.mem_append.mp hkv with hkv | hkv
      · exact h2 kv hkv
      · rw [List.mem_singleton] at hkv
        subst hkv
        refine ⟨by simp, ?_⟩
        intro w hw
        rw [List.mem_singleton] at hw
        subst hw
        exact hv

theorem foldl_qsUpdate_inv (l : List (Str × Str)) (hl : ∀ pr ∈ l, pr.2 ≠ []) :
    ∀ m, (keysOf m).Nodup → (∀ kv ∈ m, kv.2 ≠ [] ∧ ∀ w ∈ kv.2, w ≠ []) →
      (keysOf (l.foldl (fun m nv => qsUpdate m nv.1 nv.2) m)).Nodup ∧
      ∀ kv ∈ l.foldl (fun m nv => qsUpdate m nv.1 nv.2) m, kv.2 ≠ [] ∧ ∀ w ∈ kv.2, w ≠ [] := by
  induction l with
  | nil =>
    intro m h1 h2
    exact ⟨h1, h2⟩
  | cons pr rest ih =>
    intro m h1 h2
    rw [List.foldl_cons]
    obtain ⟨h1n, h2n⟩ := qsUpdate_inv h1 h2 (hl pr (by simp))
    exact ih (fun q hq => hl q (List.mem_cons_of_mem _ hq)) _ h1n h2n

theorem pyParseQsl_false_values {qs : Str} : ∀ pr ∈ pyParseQsl false qs, pr.2 ≠ [] := by
  intro pr hpr
  unfold pyParseQsl at hpr
  split at hpr
  · exact absurd hpr (List.not_mem_nil pr)
  · rw [List.mem_filterMap] at hpr
    obtain ⟨item, _, hitem⟩ := hpr
    split at hitem
    · exact absurd hitem (by simp)
    · split at hitem
      · exact absurd hitem (by simp)
      · split at hitem
        · next hcond =>
          rw [Option.some.injEq] at hitem
          subst hitem
          rcases hcond with hv | hf
          · exact unqPlus_ne_nil hv
          · exact absurd hf (by simp)
        · exact absurd hitem (by simp)

theorem pyParseQs_inv (qs : Str) :
    (keysOf (pyParseQs qs)).Nodup ∧
    ∀ kv ∈ pyParseQs qs, kv.2 ≠ [] ∧ ∀ w ∈ kv.2, w ≠ [] := by
  unfold pyParseQs
  exact foldl_qsUpdate_inv _ pyParseQsl_false_values [] (by simp [keysOf]) (by simp)

theorem mCleanup_eq_self {m : List (Str × List Str)}
    (h : ∀ kv ∈ m, kv.2 ≠ [] ∧ ∀ w ∈ kv.2, w ≠ []) : mCleanup m = m := by
  induction m with
  | nil => rfl
  | cons kv rest ih =>
    unfold mCleanup
    rw [List.filterMap_cons]
    have hfil : kv.2.filter (fun v => v ≠ []) = kv.2 :=
      List.filter_eq_self.mpr (fun w hw => by simp [(h kv (by simp)).2 w hw])
    simp only [hfil]
    rw [if_neg (h kv (by simp)).1]
    simp only
    have hrest := ih (fun q hq => h q (List.mem_cons_of_mem _ hq))
    unfold mCleanup at hrest
    rw [hrest]

theorem redact_values {m : List (Str × List Str)} (ps : List Str) {tok : Str}
    (h : ∀ kv ∈ m, kv.2 ≠ [] ∧ ∀ w ∈ kv.2, w ≠ []) (htok : tok ≠ []) :
    ∀ kv ∈ redactQueryParams m ps tok, kv.2 ≠ [] ∧ ∀ w ∈ kv.2, w ≠ [] := by
  intro kv hkv
  rw [redactQueryParams_eq_map] at hkv
  rw [List.mem_map] at hkv
  obtain ⟨kv0, hkv0, rfl⟩ := hkv
  split
  · refine ⟨by simp, ?_⟩
    intro w hw
    rw [List.mem_singleton] at hw
    subst hw
    exact htok
  · exact h kv0 hkv0

/-- What the output URL's textual query re-parses to: the redacted mapping
itself, unchanged (keys are unique and every value is a nonempty string, so
the `parse_qs(urlencode(...))` round trip is the identity). -/
theorem pyParseQs_textQuery_redact {url : Str} {p : ParseResult} (ps : List Str) {tok : Str}
    (hp : pyUrlparse url = some p) (htok : tok ≠ []) :
    pyParseQs (textQuery (redact_url_parameters url ps tok))
      = redactQueryParams (pyParseQs p.query) ps tok := by
  rw [textQuery_redact ps tok hp]
  obtain ⟨hnd, hvals⟩ := pyParseQs_inv p.query
  have hndr : (keysOf (redactQueryParams (pyParseQs p.query) ps tok)).Nodup := by
    rw [keysOf_redact]
    exact hnd
  rw [pyParseQs_urlencode hndr]
  exact mCleanup_eq_self (redact_values ps hvals htok)

theorem keysOf_update_map (m : List (Str × List Str)) (n v : Str) :
    keysOf (m.map (fun kv => if kv.1 = n then (kv.1, kv.2 ++ [v]) else kv)) = keysOf m := by
  unfold keysOf
  rw [List.map_map]
  apply List.map_congr_left
  intro kv _
  simp only [Function.comp]
  split <;> rfl

theorem foldl_qsUpdate_keys_from (l : List (Str × Str)) {n : Str}
    (hl : ∀ pr ∈ l, pr.1 ≠ n) :
    ∀ m, n ∉ keysOf m → n ∉ keysOf (l.foldl (fun m nv => qsUpdate m nv.1 nv.2) m) := by
  induction l with
  | nil =>
    intro m hm
    exact hm
  | cons pr rest ih =>
    intro m hm
    rw [List.foldl_cons]
    apply ih (fun q hq => hl q (List.mem_cons_of_mem _ hq))
    unfold qsUpdate
    split
    · rw [keysOf_update_map]
      exact hm
    · have hkeys : keysOf (m ++ [(pr.1, [pr.2])]) = keysOf m ++ [pr.1] := by
        unfold keysOf
        rw [List.map_append]
        rfl
      rw [hkeys]
      intro hmem
      rcases List.mem_append.mp hmem with hmem | hmem
      · exact hm hmem
      · rw [List.mem_singleton] at hmem
        exact hl pr (by simp) hmem.symm

theorem pyParseQsl_true_urlencode (m : List (Str × List Str)) :
    pyParseQsl true (pyUrlencode m) = pairsOf m := by
  rw [pyParseQsl_urlencode]
  have hcongr : ∀ p ∈ pairsOf m,
      (if p.2 ≠ [] ∨ (true : Bool) = true then some p else none) = some p :=
    fun p _ => if_pos (Or.inr rfl)
  rw [List.filterMap_congr hcongr]
  exact List.filterMap_some _

theorem pairsOf_fst_mem {m : List (Str × List Str)} {pr : Str × Str} (h : pr ∈ pairsOf m) :
    pr.1 ∈ keysOf m := by
  unfold pairsOf at h
  rw [List.mem_flatten] at h
  obtain ⟨l, hl, hpr⟩ := h
  rw [List.mem_map] at hl
  obtain ⟨kv, hkv, rfl⟩ := hl
  rw [List.mem_map] at hpr
  obtain ⟨v, _, rfl⟩ := hpr
  exact List.mem_map_of_mem _ hkv

theorem keysOf_mCleanup_sublist (m : List (Str × List Str)) :
    List.Sublist (keysOf (mCleanup m)) (keysOf m) := by
  induction m with
  | nil => exact List.Sublist.refl _
  | cons kv rest ih =>
    unfold mCleanup
    rw [List.filterMap_cons]
    unfold mCleanup at ih
    split
    · exact List.Sublist.cons kv.1 ih
    next b hb =>
      have hb2 : b = (kv.1, kv.2.filter (fun v => v ≠ [])) := by
        split at hb
        · exact absurd hb (by simp)
        · rw [Option.some.injEq] at hb
          exact hb.symm
      subst hb2
      exact List.Sublist.cons₂ kv.1 ih

/-- C1 (corrected: the redaction token must be nonempty).  For every URL
that parses successfully, every parameter-set member `k` present as a key
of the parsed query mapping, and every nonempty token, the query of the
output URL (as the program itself parses queries) maps `k` to exactly the
single-element value sequence `[tok]`: repeated values collapse and the key
is preserved.  With the empty token the claim fails (see the
counterexample): `urlencode` emits `k=` and the re-parse drops it. -/
theorem redacted_key_maps_to_token (url : Str) (ps : List Str) (tok k : Str) (p : ParseResult)
    (hp : pyUrlparse url = some p) (hk : k ∈ ps)
    (hpresent : (pyParseQs p.query).any (fun kv => kv.1 = k) = true)
    (htok : tok ≠ []) :
    lookupKey (pyParseQs (textQuery (redact_url_parameters url ps tok))) k = some [tok] := by
  rw [pyParseQs_textQuery_redact ps hp htok, lookupKey_redact,
    if_pos (List.any_eq_true.mpr ⟨k, hk, by simp⟩)]
  obtain ⟨vs, hvs⟩ := lookupKey_isSome_of_any hpresent
  rw [hvs]
  rfl

theorem redacted_key_maps_to_token_witness :
    lookupKey (pyParseQs (textQuery (redact_url_parameters
        ("http://h/p?api_key=s&b=2").toList [("api_key").toList] ("X").toList)))
      ("api_key").toList = some [("X").toList] :=
  redacted_key_maps_to_token _ _ _ _
    ⟨("http").toList, ("h").toList, ("/p").toList, [], ("api_key=s&b=2").toList, []⟩
    (by decide) (by decide) (by decide) (by decide)

/-- C1 counterexample: with the empty redaction token the redacted
parameter vanishes from the output's query instead of mapping to the
token — `urlencode` emits `api_key=` and the re-parse of the output query
drops the blank-valued pair. -/
theorem redacted_key_empty_token_dropped :
    (pyParseQs ("api_key=s").toList).any (fun kv => kv.1 = ("api_key").toList) = true ∧
    lookupKey (pyParseQs (textQuery (redact_url_parameters
        ("http://h/p?api_key=s").toList [("api_key").toList] [])))
      ("api_key").toList = none := by
  constructor
  · decide
  · decide

/-- C10: the distinct parameter names of the output URL's query appear in
the order of their first occurrence in the input query.  The key list of
`parse_qs` is insertion-ordered (a new key is appended the first time it
is seen), and the output's key list is a sublist of the input mapping's
key list: same relative order, with at most some keys dropped. -/
theorem output_query_key_order (url : Str) (ps : List Str) (tok : Str) (p : ParseResult)
    (hp : pyUrlparse url = some p) :
    List.Sublist (keysOf (pyParseQs (textQuery (redact_url_parameters url ps tok))))
      (keysOf (pyParseQs p.query)) := by
  rw [textQuery_redact ps tok hp]
  have hndr : (keysOf (redactQueryParams (pyParseQs p.query) ps tok)).Nodup := by
    rw [keysOf_redact]
    exact (pyParseQs_inv p.query).1
  rw [pyParseQs_urlencode hndr]
  have h1 := keysOf_mCleanup_sublist (redactQueryParams (pyParseQs p.query) ps tok)
  rw [keysOf_redact] at h1
  exact h1

theorem output_query_key_order_witness :
    List.Sublist (keysOf (pyParseQs (textQuery (redact_url_parameters
        ("http://h/p?b=1&api_key=s").toList [("api_key").toList] ("X").toList))))
      (keysOf (pyParseQs ("b=1&api_key=s").toList)) :=
  output_query_key_order _ _ _
    ⟨("http").toList, ("h").toList, ("/p").toList, [], ("b=1&api_key=s").toList, []⟩
    (by decide)

/-- C8 (corrected: the dropped parameter is one ALL of whose occurrences
carry the empty value).  For a URL that parses successfully, a parameter
name `n` that occurs in the query but only ever with blank values is
absent from the output URL's query entirely, whatever the parameter set
and token: `parse_qs` (with its default `keep_blank_values=False`)
discards the blank pairs, so `n` never reaches the re-encoded query.  A
name that also occurs with a nonempty value is kept (see the
counterexample). -/
theorem all_blank_param_dropped (url : Str) (ps : List Str) (tok n : Str) (p : ParseResult)
    (hp : pyUrlparse url = some p)
    (_hocc : (pyParseQsl true p.query).any (fun pr => pr.1 = n) = true)
    (hall : ∀ pr ∈ pyParseQsl true p.query, pr.1 = n → pr.2 = []) :
    (pyParseQsl true (textQuery (redact_url_parameters url ps tok))).all
      (fun pr => pr.1 ≠ n) = true := by
  rw [textQuery_redact ps tok hp, pyParseQsl_true_urlencode]
  rw [List.all_eq_true]
  intro pr hpr
  have hkey := pairsOf_fst_mem hpr
  rw [keysOf_redact] at hkey
  have hnot : n ∉ keysOf (pyParseQs p.query) := by
    unfold pyParseQs
    apply foldl_qsUpdate_keys_from
    · intro q hq
      rw [pyParseQsl_false_eq_filter] at hq
      have hmem := List.mem_filter.mp hq
      intro heq
      have hblank := hall q hmem.1 heq
      have hne := hmem.2
      rw [hblank] at hne
      simp at hne
    · simp [keysOf]
  rw [decide_eq_true_eq]
  intro heq
  apply hnot
  rw [← heq]
  exact hkey

theorem all_blank_param_dropped_witness :
    (pyParseQsl true ("a=&b=1").toList).any (fun pr => pr.1 = ("a").toList) = true ∧
    (pyParseQsl true (textQuery (redact_url_parameters
        ("http://h/p?a=&b=1").toList [("api_key").toList] ("X").toList))).all
      (fun pr => pr.1 ≠ ("a").toList) = true :=
  ⟨by decide, all_blank_param_dropped _ _ _ _
    ⟨("http").toList, ("h").toList, ("/p").toList, [], ("a=&b=1").toList, []⟩
    (by decide) (by decide) (by decide)⟩

/-- C8 counterexample: a parameter that occurs once with an empty value
and once with a nonempty value is not dropped — `a` survives in the output
query of `http://h/p?a=&a=1` — so "contains a parameter with an empty
value" is too weak a hypothesis for the claimed absence. -/
theorem blank_param_retained_counterexample :
    (("a").toList, ([] : Str)) ∈ pyParseQsl true ("a=&a=1").toList ∧
    ¬ (pyParseQsl true (textQuery (redact_url_parameters
        ("http://h/p?a=&a=1").toList [("api_key").toList] ("X").toList))).all
      (fun pr => pr.1 ≠ ("a").toList) = true := by
  constructor
  · decide
  · decide

/-! ## Reparse stability of the rebuilt URL (netloc nonempty) -/

theorem pyChecknetloc_true (n : Str) : pyChecknetloc n = true := by
  simp [pyChecknetloc, nfkcNormalize]

theorem dropWhile_head_not {p : Char → Bool} {l : Str} (h : l.dropWhile p ≠ []) :
    p ((l.dropWhile p).headD ' ') = false := by
  induction l with
  | nil => exact absurd rfl h
  | cons c rest ih =>
    rw [List.dropWhile_cons]
    by_cases hc : p c = true
    · rw [if_pos hc]
      rw [List.dropWhile_cons, if_pos hc] at h
      exact ih h
    · rw [if_neg hc]
      simpa using hc

theorem takeWhile_headD {p : Char → Bool} {l : Str} (h : l.takeWhile p ≠ []) (d : Char) :
    (l.takeWhile p).headD d = l.headD d := by
  cases l with
  | nil => exact absurd rfl h
  | cons c rest =>
    rw [List.takeWhile_cons]
    by_cases hc : p c = true
    · rw [if_pos hc]
      rfl
    · rw [List.takeWhile_cons, if_neg hc] at h
      exact absurd rfl h

theorem takeWhile_append_stop {p : Char → Bool} {l : Str} (hl : l.all p = true) {m : Str}
    (hm : m = [] ∨ p (m.headD ' ') = false) :
    (l ++ m).takeWhile p = l ∧ (l ++ m).dropWhile p = m := by
  constructor
  · rw [takeWhile_append_all _ hl]
    rcases hm with rfl | hm
    · simp
    · cases m with
      | nil => simp
      | cons c r =>
        rw [List.takeWhile_cons, if_neg (by simp_all), List.append_nil]
  · rw [dropWhile_append_all _ hl]
    rcases hm with rfl | hm
    · simp
    · cases m with
      | nil => simp
      | cons c r =>
        rw [List.dropWhile_cons, if_neg (by simp_all)]

theorem splitScheme_slash {u : Str} (hu : u.take 1 = ['/']) : splitScheme u = ([], u) := by
  cases u with
  | nil => simp at hu
  | cons c rest =>
    have hc : c = '/' := by simpa using hu
    subst hc
    simp only [splitScheme]
    rw [if_neg]
    intro hcond
    obtain ⟨_, _, h3, _⟩ := hcond
    rw [List.takeWhile_cons, if_pos (by decide)] at h3
    simp only [List.headD_cons] at h3
    exact absurd h3 (by decide)

theorem asciiLower_idem (c : Char) : asciiLower (asciiLower c) = asciiLower c := by
  rcases asciiLower_cases c with ⟨hu, ht⟩ | ⟨_, he⟩
  · have h1 : 65 ≤ c.toNat ∧ c.toNat ≤ 90 := by
      simp only [isAsciiUpper, Bool.and_eq_true, decide_eq_true_eq] at hu
      exact ⟨charLe_toNat hu.1, charLe_toNat hu.2⟩
    have hup : isAsciiUpper (asciiLower c) = false := by
      rw [Bool.eq_false_iff]
      intro hcon
      simp only [isAsciiUpper, Bool.and_eq_true, decide_eq_true_eq] at hcon
      have hle := charLe_toNat hcon.2
      rw [ht] at hle
      have h90 : ('Z').toNat = 90 := rfl
      omega
    rcases asciiLower_cases (asciiLower c) with ⟨hu2, _⟩ | ⟨_, he2⟩
    · rw [hup] at hu2
      exact absurd hu2 (by simp)
    · exact he2
  · rw [he, he]

theorem asciiLower_alpha {c : Char} (h : isAsciiAlpha c = true) :
    isAsciiAlpha (asciiLower c) = true := by
  rcases asciiLower_cases c with ⟨hu, ht⟩ | ⟨_, he⟩
  · have h1 : 65 ≤ c.toNat ∧ c.toNat ≤ 90 := by
      simp only [isAsciiUpper, Bool.and_eq_true, decide_eq_true_eq] at hu
      exact ⟨charLe_toNat hu.1, charLe_toNat hu.2⟩
    have hlow : isAsciiLower (asciiLower c) = true := by
      simp only [isAsciiLower, Bool.and_eq_true, decide_eq_true_eq]
      constructor
      · exact charLe_of_toNat (by rw [ht, show ('a').toNat = 97 from rfl]; omega)
      · exact charLe_of_toNat (by rw [ht, show ('z').toNat = 122 from rfl]; omega)
    simp [isAsciiAlpha, hlow]
  · rw [he]
    exact h

theorem splitScheme_roundtrip (scheme rest : Str) (hne : scheme ≠ [])
    (hhead : isAsciiAlpha (scheme.headD ' ') = true)
    (hall : scheme.all schemeChar = true)
    (hmap : scheme.map asciiLower = scheme) :
    splitScheme (scheme ++ ':' :: rest) = (scheme, rest) := by
  have hnc : scheme.all (fun c => c ≠ ':') = true :=
    all_imp hall (fun c hc => by simp [ne_of_class hc (show schemeChar ':' = false by decide)])
  have hpre : (scheme ++ ':' :: rest).takeWhile (fun c => c ≠ ':') = scheme :=
    (takeWhile_append_stop hnc (Or.inr (by simp))).1
  simp only [splitScheme]
  rw [hpre]
  rw [if_pos]
  · have hdrop : (scheme ++ ':' :: rest).drop (scheme.length + 1) = rest := by
      rw [show scheme ++ ':' :: rest = (scheme ++ [':']) ++ rest from by simp,
        List.drop_left' (by simp)]
    rw [hdrop, hmap]
  · refine ⟨hne, ?_, hhead, hall⟩
    intro heq
    have hlen := congrArg List.length heq
    simp at hlen

theorem unsplitNetlocPart_form (scheme netloc url0 : Str) (hnl : netloc ≠ [])
    (hpath : url0 = [] ∨ url0.take 1 = ['/']) :
    unsplitNetlocPart scheme netloc url0 = '/' :: '/' :: netloc ++ url0 := by
  unfold unsplitNetlocPart
  rw [if_pos (Or.inl hnl)]
  have hins : (if url0 ≠ [] ∧ url0.take 1 ≠ ['/'] then '/' :: url0 else url0) = url0 := by
    rcases hpath with rfl | hp
    · rw [if_neg]
      simp
    · rw [if_neg]
      intro hcon
      exact hcon.2 hp
  rw [hins]

theorem unsplit_as_append (scheme netloc url0 q f : Str) :
    pyUrlunsplit scheme netloc url0 q f
      = (if q ≠ [] then unsplitBase scheme netloc url0 ++ '?' :: q
          else unsplitBase scheme netloc url0)
        ++ (if f ≠ [] then '#' :: f else []) := by
  simp only [pyUrlunsplit]
  by_cases hf : f = []
  · simp [hf]
  · simp [hf]

theorem splitFragQuery_build (pre query frag : Str)
    (hpre : ∀ c ∈ pre, c ≠ '#' ∧ c ≠ '?')
    (hq : ∀ c ∈ query, c ≠ '#') :
    splitFragQuery ((if query ≠ [] then pre ++ '?' :: query else pre)
      ++ (if frag ≠ [] then '#' :: frag else [])) = (pre, query, frag) := by
  by_cases hq0 : query = []
  · subst hq0
    rw [show (if ([] : Str) ≠ [] then pre ++ '?' :: ([] : Str) else pre) = pre from by simp]
    by_cases hf : frag = []
    · subst hf
      rw [show (if ([] : Str) ≠ [] then '#' :: ([] : Str) else []) = ([] : Str) from by simp,
        List.append_nil]
      exact splitFragQuery_no_marks (fun c hc => (hpre c hc).1) (fun c hc => (hpre c hc).2)
    · rw [if_pos hf]
      have hany : (pre ++ '#' :: frag).any (fun c => c = '#') = true :=
        List.any_eq_true.mpr ⟨'#', by simp, by simp⟩
      have hstop := takeWhile_append_stop (p := fun c => c ≠ '#')
        (all_ne_bool (fun c hc => (hpre c hc).1)) (m := '#' :: frag) (Or.inr (by simp))
      have hq2 : pre.any (fun c => c = '?') = false :=
        any_false_of_all_ne (fun c hc => (hpre c hc).2)
      simp only [splitFragQuery]
      rw [hany]
      simp only [eq_self_iff_true, if_true]
      rw [hstop.1, hstop.2, hq2]
      simp only [Bool.false_eq_true, if_false]
      rfl
  · rw [if_pos hq0]
    have hA : ∀ c ∈ pre ++ '?' :: query, c ≠ '#' := by
      intro c hc
      rcases List.mem_append.mp hc with hc | hc
      · exact (hpre c hc).1
      · rcases List.mem_cons.mp hc with rfl | hc
        · decide
        · exact hq c hc
    have hany2 : (pre ++ '?' :: query).any (fun c => c = '?') = true :=
      List.any_eq_true.mpr ⟨'?', by simp, by simp⟩
    have hstop2 := takeWhile_append_stop (p := fun c => c ≠ '?')
      (all_ne_bool (fun c hc => (hpre c hc).2)) (m := '?' :: query) (Or.inr (by simp))
    by_cases hf : frag = []
    · subst hf
      rw [show (if ([] : Str) ≠ [] then '#' :: ([] : Str) else []) = ([] : Str) from by simp,
        List.append_nil]
      have hany1 : (pre ++ '?' :: query).any (fun c => c = '#') = false :=
        any_false_of_all_ne hA
      simp only [splitFragQuery]
      rw [hany1]
      simp only [Bool.false_eq_true, if_false]
      rw [hany2]
      simp only [eq_self_iff_true, if_true]
      rw [hstop2.1, hstop2.2]
      rfl
    · rw [if_pos hf]
      have hany1 : ((pre ++ '?' :: query) ++ '#' :: frag).any (fun c => c = '#') = true :=
        List.any_eq_true.mpr ⟨'#', by simp, by simp⟩
      have hstop1 := takeWhile_append_stop (p := fun c => c ≠ '#')
        (all_ne_bool hA) (m := '#' :: frag) (Or.inr (by simp))
      simp only [splitFragQuery]
      rw [hany1]
      simp only [eq_self_iff_true, if_true]
      rw [hstop1.1, hstop1.2, hany2]
      simp only [eq_self_iff_true, if_true]
      rw [hstop2.1, hstop2.2]
      rfl

theorem splitScheme_fst_shape (u : Str) :
    (splitScheme u).1 = [] ∨ ((splitScheme u).1 ≠ [] ∧
      isAsciiAlpha ((splitScheme u).1.headD ' ') = true ∧
      (splitScheme u).1.all schemeChar = true ∧
      (splitScheme u).1.map asciiLower = (splitScheme u).1) := by
  simp only [splitScheme]
  split
  next hcond =>
    obtain ⟨h1, _, h3, h4⟩ := hcond
    right
    simp only
    refine ⟨?_, ?_, ?_, ?_⟩
    · intro hmap0
      exact h1 (List.map_eq_nil_iff.mp hmap0)
    · cases hpre : u.takeWhile (fun c => c ≠ ':') with
      | nil => exact absurd hpre h1
      | cons c r =>
        rw [hpre] at h3
        simp only [List.map_cons, List.headD_cons] at h3 ⊢
        exact asciiLower_alpha h3
    · rw [List.all_eq_true]
      intro c hc
      rw [List.mem_map] at hc
      obtain ⟨d, hd, rfl⟩ := hc
      exact asciiLower_schemeChar (List.all_eq_true.mp h4 d hd)
    · rw [List.map_map]
      apply List.map_congr_left
      intro c _
      simp only [Function.comp]
      exact asciiLower_idem c
  next =>
    left
    rfl

theorem splitScheme_snd_subset (u : Str) : ∀ c ∈ (splitScheme u).2, c ∈ u := by
  intro c hc
  simp only [splitScheme] at hc
  split at hc
  · simp only at hc
    exact (List.drop_sublist _ _).subset hc
  · simp only at hc
    exact hc

theorem splitFragQuery_subset (u : Str) :
    (∀ c ∈ (splitFragQuery u).1, c ∈ u) ∧ (∀ c ∈ (splitFragQuery u).2.1, c ∈ u) ∧
    (∀ c ∈ (splitFragQuery u).2.2, c ∈ u) := by
  have hu4 : ∀ c ∈ (if u.any (fun c => c = '#') then u.takeWhile (fun c => c ≠ '#') else u),
      c ∈ u := by
    intro c hc
    split at hc
    · exact (List.takeWhile_sublist _).subset hc
    · exact hc
  refine ⟨?_, ?_, ?_⟩
  · intro c hc
    simp only [splitFragQuery] at hc
    split at hc
    · split at hc
      · exact hu4 c (by
          rw [if_pos (by assumption)] at *
          exact (List.takeWhile_sublist _).subset hc)
      · exact hu4 c (by rw [if_pos (by assumption)]; exact hc)
    · split at hc
      · exact hu4 c (by
          rw [if_neg (by assumption)]
          exact (List.takeWhile_sublist _).subset hc)
      · exact hu4 c (by rw [if_neg (by assumption)]; exact hc)
  · intro c hc
    simp only [splitFragQuery] at hc
    split at hc
    · split at hc
      · exact hu4 c (by
          rw [if_pos (by assumption)]
          exact (List.dropWhile_sublist _).subset ((List.drop_sublist _ _).subset hc))
      · exact absurd hc (List.not_mem_nil c)
    · split at hc
      · exact hu4 c (by
          rw [if_neg (by assumption)]
          exact (List.dropWhile_sublist _).subset ((List.drop_sublist _ _).subset hc))
      · exact absurd hc (List.not_mem_nil c)
  · intro c hc
    simp only [splitFragQuery] at hc
    split at hc
    · exact (List.dropWhile_sublist _).subset ((List.drop_sublist _ _).subset hc)
    · exact absurd hc (List.not_mem_nil c)

theorem splitFragQuery_fst_head (u : Str) :
    (splitFragQuery u).1 = [] ∨ (splitFragQuery u).1.headD ' ' = u.headD ' ' := by
  by_cases hp0 : (splitFragQuery u).1 = []
  · exact Or.inl hp0
  right
  simp only [splitFragQuery] at hp0 ⊢
  by_cases h1 : u.any (fun c => c = '#') = true
  · rw [h1] at hp0 ⊢
    simp only [eq_self_iff_true, if_true] at hp0 ⊢
    by_cases h2 : (u.takeWhile (fun c => c ≠ '#')).any (fun c => c = '?') = true
    · rw [h2] at hp0 ⊢
      simp only [eq_self_iff_true, if_true] at hp0 ⊢
      have h4ne : u.takeWhile (fun c => c ≠ '#') ≠ [] := by
        intro h4
        rw [h4] at hp0
        simp at hp0
      rw [takeWhile_headD hp0 ' ', takeWhile_headD h4ne ' ']
    · have h2f : (u.takeWhile (fun c => c ≠ '#')).any (fun c => c = '?') = false :=
        Bool.eq_false_iff.mpr h2
      rw [h2f] at hp0 ⊢
      simp only [Bool.false_eq_true, if_false] at hp0 ⊢
      exact takeWhile_headD hp0 ' '
  · have h1f : u.any (fun c => c = '#') = false := Bool.eq_false_iff.mpr h1
    rw [h1f] at hp0 ⊢
    simp only [Bool.false_eq_true, if_false] at hp0 ⊢
    by_cases h2 : u.any (fun c => c = '?') = true
    · rw [h2] at hp0 ⊢
      simp only [eq_self_iff_true, if_true] at hp0 ⊢
      exact takeWhile_headD hp0 ' '
    · have h2f : u.any (fun c => c = '?') = false := Bool.eq_false_iff.mpr h2
      rw [h2f]
      simp only [Bool.false_eq_true, if_false]

theorem pyUrlsplit_state {url : Str} {s : SplitResult} (h : pyUrlsplit url = some s)
    (hnl : s.netloc ≠ []) :
    (s.scheme = [] ∨ (s.scheme ≠ [] ∧ isAsciiAlpha (s.scheme.headD ' ') = true ∧
      s.scheme.all schemeChar = true ∧ s.scheme.map asciiLower = s.scheme)) ∧
    (∀ c ∈ s.netloc, netlocDelim c = false) ∧
    netlocBracketsOk s.netloc = true ∧
    (s.path = [] ∨ s.path.take 1 = ['/']) ∧
    (∀ c ∈ s.netloc ++ s.path ++ s.fragment, isUnsafeUrlByte c = false) := by
  obtain ⟨u2, hss, hbr⟩ := pyUrlsplit_inv h
  rcases hbr with ⟨htk, hnle, hbrk, hpqf⟩ | ⟨_, hnle, _⟩
  swap
  · exact absurd hnle hnl
  set url1 := (url.dropWhile isC0Space).filter (fun c => !isUnsafeUrlByte c) with hurl1
  have hu1unsafe : ∀ c ∈ url1, isUnsafeUrlByte c = false := by
    intro c hc
    rw [hurl1] at hc
    have hmf := (List.mem_filter.mp hc).2
    simpa using hmf
  have hu2sub : ∀ c ∈ u2, c ∈ url1 := by
    intro c hc
    apply splitScheme_snd_subset url1
    rw [hss]
    exact hc
  have hu3sub : ∀ c ∈ (u2.drop 2).dropWhile (fun c => !netlocDelim c), c ∈ url1 := by
    intro c hc
    exact hu2sub c ((List.drop_sublist _ _).subset ((List.dropWhile_sublist _).subset hc))
  refine ⟨?_, ?_, hbrk, ?_, ?_⟩
  · have hsh := splitScheme_fst_shape url1
    rw [hss] at hsh
    exact hsh
  · intro c hc
    rw [hnle] at hc
    have htw := List.mem_takeWhile_imp hc
    simpa using htw
  · by_cases hp0 : s.path = []
    · exact Or.inl hp0
    right
    rcases splitFragQuery_fst_head ((u2.drop 2).dropWhile (fun c => !netlocDelim c)) with h0 | hh
    · rw [hpqf] at h0
      exact absurd h0 hp0
    rw [hpqf] at hh
    have hu3ne : (u2.drop 2).dropWhile (fun c => !netlocDelim c) ≠ [] := by
      intro h3
      rw [h3] at hpqf
      rw [show splitFragQuery [] = ([], [], []) from rfl] at hpqf
      have hfst := congrArg (fun t : Str × Str × Str => t.1) hpqf
      simp only at hfst
      exact hp0 hfst.symm
    have hdel : netlocDelim (((u2.drop 2).dropWhile (fun c => !netlocDelim c)).headD ' ')
        = true := by
      have hdw := dropWhile_head_not hu3ne
      simpa using hdw
    have hmarks := (splitFragQuery_props ((u2.drop 2).dropWhile (fun c => !netlocDelim c))).1
    cases hpth : s.path with
    | nil => exact absurd hpth hp0
    | cons c t =>
      have hcm : c ≠ '#' ∧ c ≠ '?' := by
        apply hmarks c
        rw [hpqf, hpth]
        simp
      rw [hpth] at hh
      simp only [List.headD_cons] at hh
      rw [← hh] at hdel
      simp only [netlocDelim, Bool.or_eq_true, decide_eq_true_eq] at hdel
      rcases hdel with (hc | hc) | hc
      · simp [hc]
      · exact absurd hc hcm.2
      · exact absurd hc hcm.1
  · intro c hc
    rcases List.mem_append.mp hc with hc | hc
    · rcases List.mem_append.mp hc with hc | hc
      · apply hu1unsafe
        rw [hnle] at hc
        exact hu2sub c ((List.drop_sublist _ _).subset ((List.takeWhile_sublist _).subset hc))
      · apply hu1unsafe
        apply hu3sub
        exact (splitFragQuery_subset _).1 c (by rw [hpqf]; exact hc)
    · apply hu1unsafe
      apply hu3sub
      exact (splitFragQuery_subset _).2.2 c (by rw [hpqf]; exact hc)

theorem dropWhile_id_of_head {p : Char → Bool} {l : Str}
    (h : l = [] ∨ p (l.headD ' ') = false) : l.dropWhile p = l := by
  cases l with
  | nil => rfl
  | cons c r =>
    rcases h with h | h
    · exact absurd h (by simp)
    · rw [List.dropWhile_cons, if_neg (by simp_all)]

theorem alpha_not_c0 {c : Char} (h : isAsciiAlpha c = true) : isC0Space c = false := by
  simp only [isAsciiAlpha, isAsciiUpper, isAsciiLower, Bool.or_eq_true, Bool.and_eq_true,
    decide_eq_true_eq] at h
  have hbound : 65 ≤ c.toNat := by
    rcases h with ⟨h1, _⟩ | ⟨h1, _⟩
    · exact charLe_toNat h1
    · have := charLe_toNat h1
      have h97 : ('a').toNat = 97 := rfl
      omega
  simp only [isC0Space, decide_eq_false_iff_not]
  omega

theorem not_unsafe_of_class {p : Char → Bool} {c : Char} (hp : p c = true)
    (h1 : p '\t' = false) (h2 : p '\r' = false) (h3 : p '\n' = false) :
    isUnsafeUrlByte c = false := by
  simp only [isUnsafeUrlByte, Bool.or_eq_false_iff, decide_eq_false_iff_not]
  exact ⟨⟨ne_of_class hp h1, ne_of_class hp h2⟩, ne_of_class hp h3⟩

theorem pyUrlsplit_output (scheme netloc url0 q f : Str)
    (hsch : scheme = [] ∨ (scheme ≠ [] ∧ isAsciiAlpha (scheme.headD ' ') = true ∧
      scheme.all schemeChar = true ∧ scheme.map asciiLower = scheme))
    (hnl : netloc ≠ [])
    (hnld : ∀ c ∈ netloc, netlocDelim c = false)
    (hbrk : netlocBracketsOk netloc = true)
    (hpath : url0 = [] ∨ url0.take 1 = ['/'])
    (hpm : ∀ c ∈ url0, c ≠ '#' ∧ c ≠ '?')
    (hqh : ∀ c ∈ q, c ≠ '#')
    (hqu : ∀ c ∈ q, isUnsafeUrlByte c = false)
    (hu : ∀ c ∈ netloc ++ url0 ++ f, isUnsafeUrlByte c = false) :
    pyUrlsplit (pyUrlunsplit scheme netloc url0 q f) = some ⟨scheme, netloc, url0, q, f⟩ := by
  set R := (if q ≠ [] then '?' :: q else []) ++ (if f ≠ [] then '#' :: f else []) with hR
  set T := ('/' :: '/' :: netloc ++ url0) ++ R with hT
  have hout : pyUrlunsplit scheme netloc url0 q f
      = if scheme ≠ [] then scheme ++ ':' :: T else T := by
    rw [unsplit_as_append]
    unfold unsplitBase
    rw [unsplitNetlocPart_form scheme netloc url0 hnl hpath]
    rw [hT, hR]
    by_cases hs0 : scheme = [] <;> by_cases hq0 : q = [] <;> by_cases hf0 : f = [] <;>
      simp [hs0, hq0, hf0, List.append_assoc]
  have hTu : ∀ c ∈ T, isUnsafeUrlByte c = false := by
    intro c hc
    rw [hT] at hc
    rcases List.mem_append.mp hc with hc | hc
    · rcases List.mem_cons.mp hc with rfl | hc
      · decide
      rcases List.mem_cons.mp hc with rfl | hc
      · decide
      rcases List.mem_append.mp hc with hc | hc
      · exact hu c (by simp [hc])
      · exact hu c (by simp [hc])
    · rw [hR] at hc
      rcases List.mem_append.mp hc with hc | hc
      · split at hc
        · rcases List.mem_cons.mp hc with rfl | hc
          · decide
          · exact hqu c hc
        · exact absurd hc (List.not_mem_nil c)
      · split at hc
        · rcases List.mem_cons.mp hc with rfl | hc
          · decide
          · exact hu c (by simp [hc])
        · exact absurd hc (List.not_mem_nil c)
  have hOu : ∀ c ∈ pyUrlunsplit scheme netloc url0 q f, isUnsafeUrlByte c = false := by
    intro c hc
    rw [hout] at hc
    split at hc
    · rcases List.mem_append.mp hc with hc | hc
      · rcases hsch with hs0 | ⟨_, _, hs3, _⟩
        · rw [hs0] at hc
          exact absurd hc (List.not_mem_nil c)
        · exact not_unsafe_of_class (List.all_eq_true.mp hs3 c hc)
            (by decide) (by decide) (by decide)
      · rcases List.mem_cons.mp hc with rfl | hc
        · decide
        · exact hTu c hc
    · exact hTu c hc
  have hThead : T.headD ' ' = '/' := by rw [hT]; rfl
  have hdrop : (pyUrlunsplit scheme netloc url0 q f).dropWhile isC0Space
      = pyUrlunsplit scheme netloc url0 q f := by
    rw [hout]
    rcases hsch with hs0 | ⟨hs1, hs2, _, _⟩
    · rw [if_neg (by simp [hs0])]
      exact dropWhile_id_of_head (Or.inr (by rw [hThead]; decide))
    · rw [if_pos hs1]
      apply dropWhile_id_of_head
      right
      cases scheme with
      | nil => exact absurd rfl hs1
      | cons c r =>
        simp only [List.cons_append, List.headD_cons] at hs2 ⊢
        exact alpha_not_c0 hs2
  have hfil : (pyUrlunsplit scheme netloc url0 q f).filter (fun c => !isUnsafeUrlByte c)
      = pyUrlunsplit scheme netloc url0 q f :=
    List.filter_eq_self.mpr (fun c hc => by simp [hOu c hc])
  have hss : splitScheme (pyUrlunsplit scheme netloc url0 q f) = (scheme, T) := by
    rw [hout]
    rcases hsch with hs0 | ⟨hs1, hs2, hs3, hs4⟩
    · rw [if_neg (by simp [hs0]), hs0]
      exact splitScheme_slash (by rw [hT]; rfl)
    · rw [if_pos hs1]
      exact splitScheme_roundtrip scheme T hs1 hs2 hs3 hs4
  have hTdrop2 : T.drop 2 = netloc ++ (url0 ++ R) := by
    rw [hT]
    rw [show ('/' :: '/' :: netloc ++ url0) ++ R
        = '/' :: '/' :: ((netloc ++ url0) ++ R) from by simp]
    rw [show (('/' : Char) :: '/' :: ((netloc ++ url0) ++ R)).drop 2
        = (netloc ++ url0) ++ R from rfl]
    rw [List.append_assoc]
  have hmR : url0 ++ R = [] ∨ (fun c => !netlocDelim c) ((url0 ++ R).headD ' ') = false := by
    rcases hpath with h0 | h0
    · rw [h0, List.nil_append, hR]
      by_cases hq0 : q = []
      · by_cases hf0 : f = []
        · left
          simp [hq0, hf0]
        · right
          rw [if_neg (by simp [hq0]), if_pos hf0]
          rfl
      · right
        rw [if_pos hq0]
        rfl
    · right
      cases url0 with
      | nil => simp at h0
      | cons c r =>
        have hc : c = '/' := by simpa using h0
        subst hc
        rfl
  have hnall : netloc.all (fun c => !netlocDelim c) = true :=
    List.all_eq_true.mpr (fun c hc => by simp [hnld c hc])
  have hstopN := takeWhile_append_stop hnall hmR
  have harg : url0 ++ R = (if q ≠ [] then url0 ++ '?' :: q else url0)
      ++ (if f ≠ [] then '#' :: f else []) := by
    rw [hR]
    by_cases hq0 : q = []
    · simp [hq0]
    · simp [hq0, List.append_assoc]
  have hb := splitFragQuery_build url0 q f hpm hqh
  have ht2 : T.take 2 = ['/', '/'] := by rw [hT]; rfl
  simp only [pyUrlsplit]
  rw [hdrop, hfil, hss]
  simp only
  simp only [ht2, eq_self_iff_true, if_true]
  simp only [hTdrop2, hstopN.1, hstopN.2]
  simp only [hbrk, pyChecknetloc_true, Bool.and_self, eq_self_iff_true, if_true]
  simp only [harg, hb]

theorem dropWhile_char_spec {l : Str} {a : Char} (h : l.any (fun c => c = a) = true) :
    l.dropWhile (fun c => c ≠ a) ≠ [] ∧ (l.dropWhile (fun c => c ≠ a)).headD ' ' = a := by
  induction l with
  | nil => simp at h
  | cons c rest ih =>
    rw [List.dropWhile_cons]
    by_cases hc : c = a
    · rw [if_neg (by simp [hc])]
      exact ⟨by simp, by simp [hc]⟩
    · rw [if_pos (by simp [hc])]
      apply ih
      rw [List.any_cons] at h
      rcases Bool.or_eq_true_iff.mp h with h1 | h1
      · exact absurd (by simpa using h1) hc
      · exact h1

theorem dropWhile_char_cons {l : Str} {a : Char} (h : l.any (fun c => c = a) = true) :
    l.dropWhile (fun c => c ≠ a) = a :: (l.dropWhile (fun c => c ≠ a)).drop 1 := by
  obtain ⟨hne, hhd⟩ := dropWhile_char_spec h
  cases hdw : l.dropWhile (fun c => c ≠ a) with
  | nil => exact absurd hdw hne
  | cons x t =>
    rw [hdw] at hhd
    simp only [List.headD_cons] at hhd
    rw [hhd]
    rfl

theorem rev_decomp (p0 : Str) (q : Char → Bool) :
    p0 = (p0.reverse.dropWhile q).reverse ++ (p0.reverse.takeWhile q).reverse := by
  have h := List.takeWhile_append_dropWhile (p := q) (l := p0.reverse)
  calc p0 = p0.reverse.reverse := (List.reverse_reverse p0).symm
    _ = (p0.reverse.takeWhile q ++ p0.reverse.dropWhile q).reverse := by rw [h]
    _ = (p0.reverse.dropWhile q).reverse ++ (p0.reverse.takeWhile q).reverse := by
        rw [List.reverse_append]

theorem any_reverse_eq (l : Str) (p : Char → Bool) : l.reverse.any p = l.any p := by
  by_cases h : l.any p = true
  · rw [h]
    obtain ⟨x, hx, hpx⟩ := List.any_eq_true.mp h
    exact List.any_eq_true.mpr ⟨x, List.mem_reverse.mpr hx, hpx⟩
  · have hf : l.any p = false := Bool.eq_false_iff.mpr h
    rw [hf, Bool.eq_false_iff]
    intro hc
    obtain ⟨x, hx, hpx⟩ := List.any_eq_true.mp hc
    exact h (List.any_eq_true.mpr ⟨x, List.mem_reverse.mp hx, hpx⟩)

theorem take_sub_of_append (l m : Str) : (l ++ m).take ((l ++ m).length - m.length) = l := by
  have hlen : (l ++ m).length - m.length = l.length := by simp
  rw [hlen, List.take_left]

theorem splitParams_props {p0 : Str} (hsemi : p0.any (fun c => c = ';') = true) :
    ((splitParams p0).1.reverse.takeWhile (fun c => c ≠ '/')).any (fun c => c = ';') = false ∧
    (splitParams p0).2.any (fun c => c = '/') = false := by
  simp only [splitParams]
  by_cases hsl : p0.any (fun c => c = '/') = true
  · rw [hsl]
    simp only [eq_self_iff_true, if_true]
    set tl := (p0.reverse.takeWhile (fun c => c ≠ '/')).reverse with htl
    have htlne : ∀ c ∈ tl, c ≠ '/' := by
      intro c hc
      rw [htl, List.mem_reverse] at hc
      simpa using List.mem_takeWhile_imp hc
    by_cases h2 : tl.any (fun c => c = ';') = true
    · rw [h2]
      simp only [eq_self_iff_true, if_true]
      set B := (p0.reverse.dropWhile (fun c => c ≠ '/')).reverse with hB
      have hdecomp : p0 = B ++ tl := by
        rw [hB, htl]
        exact rev_decomp p0 _
      have htake : p0.take (p0.length - tl.length) = B := by
        rw [hdecomp]
        exact take_sub_of_append B tl
      have hBrev : B.reverse = p0.reverse.dropWhile (fun c => c ≠ '/') := by
        rw [hB, List.reverse_reverse]
      have hrevany : p0.reverse.any (fun c => c = '/') = true := by
        rw [any_reverse_eq]
        exact hsl
      have hspec := dropWhile_char_spec hrevany
      have hs0 : ∀ c ∈ tl.takeWhile (fun c => c ≠ ';'), c ≠ ';' := by
        intro c hc
        simpa using List.mem_takeWhile_imp hc
      constructor
      · rw [htake, List.reverse_append]
        have hstop := takeWhile_append_stop (p := fun c => c ≠ '/')
          (l := (tl.takeWhile (fun c => c ≠ ';')).reverse)
          (all_ne_bool (fun c hc =>
            htlne c ((List.takeWhile_sublist _).subset (List.mem_reverse.mp hc))))
          (m := B.reverse)
          (Or.inr (by
            rw [hBrev, hspec.2]
            simp))
        rw [hstop.1]
        apply any_false_of_all_ne
        intro c hc
        exact hs0 c (List.mem_reverse.mp hc)
      · apply any_false_of_all_ne
        intro c hc
        exact htlne c ((List.dropWhile_sublist _).subset ((List.drop_sublist _ _).subset hc))
    · have h2f : tl.any (fun c => c = ';') = false := Bool.eq_false_iff.mpr h2
      rw [h2f]
      simp only [Bool.false_eq_true, if_false]
      constructor
      · have hre : p0.reverse.takeWhile (fun c => c ≠ '/') = tl.reverse := by
          rw [htl, List.reverse_reverse]
        rw [hre, any_reverse_eq]
        exact h2f
      · simp
  · have hslf : p0.any (fun c => c = '/') = false := Bool.eq_false_iff.mpr hsl
    rw [hslf]
    simp only [Bool.false_eq_true, if_false]
    rw [hsemi]
    simp only [eq_self_iff_true, if_true]
    have hnosl : ∀ c ∈ p0, c ≠ '/' := all_ne_of_any_false hslf
    constructor
    · apply any_false_of_all_ne
      intro c hc
      have hcm : c ∈ p0.takeWhile (fun c => c ≠ ';') :=
        List.mem_reverse.mp ((List.takeWhile_sublist _).subset hc)
      simpa using List.mem_takeWhile_imp hcm
    · apply any_false_of_all_ne
      intro c hc
      exact hnosl c ((List.dropWhile_sublist _).subset ((List.drop_sublist _ _).subset hc))

theorem headD_append_left {l : Str} (m : Str) (h : l ≠ []) (d : Char) :
    (l ++ m).headD d = l.headD d := by
  cases l with
  | nil => exact absurd rfl h
  | cons c r => rfl

theorem splitParams_recomb {p0 : Str} (hsemi : p0.any (fun c => c = ';') = true)
    (hne2 : (splitParams p0).2 ≠ []) :
    (splitParams p0).1 ++ ';' :: (splitParams p0).2 = p0 := by
  simp only [splitParams]
  by_cases hsl : p0.any (fun c => c = '/') = true
  · rw [hsl]
    simp only [eq_self_iff_true, if_true]
    set tl := (p0.reverse.takeWhile (fun c => c ≠ '/')).reverse with htl
    by_cases h2 : tl.any (fun c => c = ';') = true
    · rw [h2]
      simp only [eq_self_iff_true, if_true]
      set B := (p0.reverse.dropWhile (fun c => c ≠ '/')).reverse with hB
      have hdecomp : p0 = B ++ tl := by
        rw [hB, htl]
        exact rev_decomp p0 _
      have htake : p0.take (p0.length - tl.length) = B := by
        rw [hdecomp]
        exact take_sub_of_append B tl
      have hdw := dropWhile_char_cons h2
      have hjoin : tl.takeWhile (fun c => c ≠ ';')
          ++ ';' :: ((tl.dropWhile (fun c => c ≠ ';')).drop 1) = tl := by
        conv_rhs => rw [← List.takeWhile_append_dropWhile (p := fun c => c ≠ ';') (l := tl),
          hdw]
      rw [htake, List.append_assoc, hjoin]
      exact hdecomp.symm
    · exfalso
      apply hne2
      simp only [splitParams]
      rw [hsl]
      simp only [eq_self_iff_true, if_true]
      rw [← htl, Bool.eq_false_iff.mpr h2]
      simp only [Bool.false_eq_true, if_false]
  · have hslf : p0.any (fun c => c = '/') = false := Bool.eq_false_iff.mpr hsl
    rw [hslf]
    simp only [Bool.false_eq_true, if_false]
    rw [hsemi]
    simp only [eq_self_iff_true, if_true]
    have hdw := dropWhile_char_cons hsemi
    conv_rhs => rw [← List.takeWhile_append_dropWhile (p := fun c => c ≠ ';') (l := p0), hdw]

theorem splitParams_of_clean_tail {path : Str}
    (hb : (path.reverse.takeWhile (fun c => c ≠ '/')).any (fun c => c = ';') = false)
    (hs : path.any (fun c => c = ';') = true) :
    splitParams path = (path, []) := by
  have hsl : path.any (fun c => c = '/') = true := by
    by_contra hcon
    have hslf := Bool.eq_false_iff.mpr hcon
    have hid : path.reverse.takeWhile (fun c => c ≠ '/') = path.reverse :=
      takeWhile_all (all_ne_bool (fun c hc =>
        all_ne_of_any_false hslf c (List.mem_reverse.mp hc)))
    rw [hid, any_reverse_eq, hs] at hb
    exact absurd hb (by simp)
  simp only [splitParams]
  rw [hsl]
  simp only [eq_self_iff_true, if_true]
  have htlany : ((path.reverse.takeWhile (fun c => c ≠ '/')).reverse).any
      (fun c => c = ';') = false := by
    rw [any_reverse_eq]
    exact hb
  rw [htlany]
  simp only [Bool.false_eq_true, if_false]

theorem splitParams_insert (path params : Str)
    (hb : (path.reverse.takeWhile (fun c => c ≠ '/')).any (fun c => c = ';') = false)
    (hp : params.any (fun c => c = '/') = false) :
    splitParams (path ++ ';' :: params) = (path, params) := by
  by_cases hsl : path.any (fun c => c = '/') = true
  · have hslw : (path ++ ';' :: params).any (fun c => c = '/') = true := by
      obtain ⟨x, hx, hpx⟩ := List.any_eq_true.mp hsl
      exact List.any_eq_true.mpr ⟨x, by simp [hx], hpx⟩
    simp only [splitParams]
    rw [hslw]
    simp only [eq_self_iff_true, if_true]
    have hrev : (path ++ ';' :: params).reverse = params.reverse ++ ';' :: path.reverse := by
      rw [List.reverse_append, List.reverse_cons, List.append_assoc]
      rfl
    have hprev : ∀ c ∈ params.reverse, c ≠ '/' := fun c hc =>
      all_ne_of_any_false hp c (List.mem_reverse.mp hc)
    have htl2 : (path ++ ';' :: params).reverse.takeWhile (fun c => c ≠ '/')
        = params.reverse ++ ';' :: (path.reverse.takeWhile (fun c => c ≠ '/')) := by
      rw [hrev, takeWhile_append_all _ (all_ne_bool hprev), List.takeWhile_cons,
        if_pos (by decide)]
    have htlv : ((path ++ ';' :: params).reverse.takeWhile (fun c => c ≠ '/')).reverse
        = (path.reverse.takeWhile (fun c => c ≠ '/')).reverse ++ ';' :: params := by
      rw [htl2, List.reverse_append, List.reverse_cons, List.reverse_reverse,
        List.append_assoc]
      rfl
    rw [htlv]
    have hsegne : ∀ c ∈ (path.reverse.takeWhile (fun c => c ≠ '/')).reverse, c ≠ ';' :=
      fun c hc => all_ne_of_any_false hb c (List.mem_reverse.mp hc)
    have hcond : ((path.reverse.takeWhile (fun c => c ≠ '/')).reverse ++ ';' :: params).any
        (fun c => c = ';') = true :=
      List.any_eq_true.mpr ⟨';', by simp, by simp⟩
    rw [hcond]
    simp only [eq_self_iff_true, if_true]
    have hstop := takeWhile_append_stop (p := fun c => c ≠ ';')
      (l := (path.reverse.takeWhile (fun c => c ≠ '/')).reverse)
      (all_ne_bool hsegne) (m := ';' :: params) (Or.inr (by simp))
    rw [hstop.1, hstop.2]
    have hPdec : path = (path.reverse.dropWhile (fun c => c ≠ '/')).reverse
        ++ (path.reverse.takeWhile (fun c => c ≠ '/')).reverse := rev_decomp path _
    have hlen : (path ++ ';' :: params).length
        - ((path.reverse.takeWhile (fun c => c ≠ '/')).reverse ++ ';' :: params).length
        = (path.reverse.dropWhile (fun c => c ≠ '/')).reverse.length := by
      have hl2 := congrArg List.length hPdec
      simp only [List.length_append, List.length_cons, List.length_reverse] at hl2 ⊢
      omega
    have he : path ++ ';' :: params
        = (path.reverse.dropWhile (fun c => c ≠ '/')).reverse
          ++ ((path.reverse.takeWhile (fun c => c ≠ '/')).reverse ++ ';' :: params) := by
      conv_lhs => rw [hPdec]
      rw [List.append_assoc]
    have htakeP : (path ++ ';' :: params).take ((path ++ ';' :: params).length
        - ((path.reverse.takeWhile (fun c => c ≠ '/')).reverse ++ ';' :: params).length)
        = (path.reverse.dropWhile (fun c => c ≠ '/')).reverse := by
      rw [hlen, he, List.take_left]
    rw [htakeP]
    rw [show ((path.reverse.dropWhile (fun c => c ≠ '/')).reverse
        ++ (path.reverse.takeWhile (fun c => c ≠ '/')).reverse) = path from hPdec.symm]
    rfl
  · have hslf : path.any (fun c => c = '/') = false := Bool.eq_false_iff.mpr hsl
    have hslw : (path ++ ';' :: params).any (fun c => c = '/') = false := by
      apply any_false_of_all_ne
      intro c hc
      rcases List.mem_append.mp hc with hc | hc
      · exact all_ne_of_any_false hslf c hc
      · rcases List.mem_cons.mp hc with rfl | hc
        · decide
        · exact all_ne_of_any_false hp c hc
    simp only [splitParams]
    rw [hslw]
    simp only [Bool.false_eq_true, if_false]
    have hsw : (path ++ ';' :: params).any (fun c => c = ';') = true :=
      List.any_eq_true.mpr ⟨';', by simp, by simp⟩
    rw [hsw]
    simp only [eq_self_iff_true, if_true]
    have hpns : ∀ c ∈ path, c ≠ ';' := by
      intro c hc
      have hid : path.reverse.takeWhile (fun c => c ≠ '/') = path.reverse :=
        takeWhile_all (all_ne_bool (fun d hd =>
          all_ne_of_any_false hslf d (List.mem_reverse.mp hd)))
      rw [hid, any_reverse_eq] at hb
      exact all_ne_of_any_false hb c hc
    have hstop := takeWhile_append_stop (p := fun c => c ≠ ';') (l := path)
      (all_ne_bool hpns) (m := ';' :: params) (Or.inr (by simp))
    rw [hstop.1, hstop.2]
    rfl

theorem dropLast_headD {l : Str} (h : l.dropLast ≠ []) (d : Char) :
    l.dropLast.headD d = l.headD d := by
  cases l with
  | nil => exact absurd rfl h
  | cons c r =>
    cases r with
    | nil => exact absurd rfl h
    | cons x xs => rfl

theorem splitParams_fst_head (p0 : Str) :
    (splitParams p0).1 = [] ∨ (splitParams p0).1.headD ' ' = p0.headD ' ' := by
  by_cases hp1 : (splitParams p0).1 = []
  · exact Or.inl hp1
  right
  simp only [splitParams] at hp1 ⊢
  by_cases hsl : p0.any (fun c => c = '/') = true
  · rw [hsl] at hp1 ⊢
    simp only [eq_self_iff_true, if_true] at hp1 ⊢
    set tl := (p0.reverse.takeWhile (fun c => c ≠ '/')).reverse with htl
    by_cases h2 : tl.any (fun c => c = ';') = true
    · rw [h2] at hp1 ⊢
      simp only [eq_self_iff_true, if_true] at hp1 ⊢
      set B := (p0.reverse.dropWhile (fun c => c ≠ '/')).reverse with hB
      have hdecomp : p0 = B ++ tl := by
        rw [hB, htl]
        exact rev_decomp p0 _
      have htake : p0.take (p0.length - tl.length) = B := by
        rw [hdecomp]
        exact take_sub_of_append B tl
      have hrevany : p0.reverse.any (fun c => c = '/') = true := by
        rw [any_reverse_eq]
        exact hsl
      have hBne : B ≠ [] := by
        rw [hB]
        intro hcon
        exact (dropWhile_char_spec hrevany).1 (by
          have := congrArg List.reverse hcon
          rwa [List.reverse_reverse] at this)
      rw [htake, headD_append_left _ hBne ' ']
      conv_rhs => rw [hdecomp]
      rw [headD_append_left _ hBne ' ']
    · have h2f : tl.any (fun c => c = ';') = false := Bool.eq_false_iff.mpr h2
      rw [h2f] at hp1 ⊢
      simp only [Bool.false_eq_true, if_false] at hp1 ⊢
  · have hslf : p0.any (fun c => c = '/') = false := Bool.eq_false_iff.mpr hsl
    rw [hslf] at hp1 ⊢
    simp only [Bool.false_eq_true, if_false] at hp1 ⊢
    by_cases h2 : p0.any (fun c => c = ';') = true
    · rw [h2] at hp1 ⊢
      simp only [eq_self_iff_true, if_true] at hp1 ⊢
      exact takeWhile_headD hp1 ' '
    · have h2f : p0.any (fun c => c = ';') = false := Bool.eq_false_iff.mpr h2
      rw [h2f] at hp1 ⊢
      simp only [Bool.false_eq_true, if_false] at hp1 ⊢
      exact dropLast_headD hp1 ' '

theorem take_one_of_headD {l : Str} (h : l ≠ []) (hh : l.headD ' ' = '/') :
    l.take 1 = ['/'] := by
  cases l with
  | nil => exact absurd rfl h
  | cons c t =>
    simp only [List.headD_cons] at hh
    simp [hh]

theorem pyUrlparse_inv {url : Str} {p : ParseResult} (h : pyUrlparse url = some p) :
    ∃ s : SplitResult, pyUrlsplit url = some s ∧ s.scheme = p.scheme ∧ s.netloc = p.netloc ∧
      s.query = p.query ∧ s.fragment = p.fragment ∧
      ((usesParams.any (fun x => x = s.scheme) && s.path.any (fun c => c = ';')) = true ∧
        p.path = (splitParams s.path).1 ∧ p.params = (splitParams s.path).2 ∨
       (usesParams.any (fun x => x = s.scheme) && s.path.any (fun c => c = ';')) = false ∧
        p.path = s.path ∧ p.params = []) := by
  unfold pyUrlparse at h
  rcases hsp : pyUrlsplit url with _ | s
  · rw [hsp] at h
    exact absurd h (by simp)
  · rw [hsp] at h
    simp only at h
    refine ⟨s, rfl, ?_⟩
    split at h
    next hcond =>
      rw [Option.some.injEq] at h
      subst h
      exact ⟨rfl, rfl, rfl, rfl, Or.inl ⟨hcond, rfl, rfl⟩⟩
    next hcond =>
      rw [Option.some.injEq] at h
      subst h
      exact ⟨rfl, rfl, rfl, rfl, Or.inr ⟨Bool.eq_false_iff.mpr hcond, rfl, rfl⟩⟩

theorem pyUrlparse_output {url : Str} {p : ParseResult} (hp : pyUrlparse url = some p)
    (hnl : p.netloc ≠ []) (q' : Str)
    (hqh : ∀ c ∈ q', c ≠ '#') (hqu : ∀ c ∈ q', isUnsafeUrlByte c = false) :
    pyUrlparse (pyUrlunparse p.scheme p.netloc p.path p.params q' p.fragment)
      = some ⟨p.scheme, p.netloc, p.path, p.params, q', p.fragment⟩ := by
  obtain ⟨s, hsp, hsc, hnle, hqe, hfe, hbr⟩ := pyUrlparse_inv hp
  have hnls : s.netloc ≠ [] := by rw [hnle]; exact hnl
  obtain ⟨hshape, hnld, hbrk, hpathhead, hunul⟩ := pyUrlsplit_state hsp hnls
  obtain ⟨_, _, hpam, hprm, _⟩ := pyUrlparse_no_marks hp
  set U := (if p.params ≠ [] then p.path ++ ';' :: p.params else p.path) with hU
  have hpsub : ∀ c ∈ p.path, c ∈ s.path := by
    rcases hbr with ⟨_, hpp1, _⟩ | ⟨_, hpp1, _⟩
    · intro c hc
      rw [hpp1] at hc
      exact (splitParams_subset s.path).1 c hc
    · intro c hc
      rw [hpp1] at hc
      exact hc
  have hprsub : ∀ c ∈ p.params, c ∈ s.path := by
    rcases hbr with ⟨_, _, hpp2⟩ | ⟨_, _, hpp2⟩
    · intro c hc
      rw [hpp2] at hc
      exact (splitParams_subset s.path).2 c hc
    · intro c hc
      rw [hpp2] at hc
      exact absurd hc (List.not_mem_nil c)
  have hUsub : ∀ c ∈ U, c = ';' ∨ c ∈ s.path := by
    intro c hc
    rw [hU] at hc
    split at hc
    · rcases List.mem_append.mp hc with hc | hc
      · exact Or.inr (hpsub c hc)
      · rcases List.mem_cons.mp hc with rfl | hc
        · exact Or.inl rfl
        · exact Or.inr (hprsub c hc)
    · exact Or.inr (hpsub c hc)
  have hwhole : U = [] ∨ U.take 1 = ['/'] := by
    by_cases hpar : p.params = []
    · have hU2 : U = p.path := by rw [hU]; simp [hpar]
      rw [hU2]
      rcases hbr with ⟨hcondT, hpp1, _⟩ | ⟨_, hpp1, _⟩
      · rcases hpathhead with hsp0 | hsp1
        · left
          rw [hpp1, hsp0]
          rfl
        · rcases splitParams_fst_head s.path with h0 | hh
          · left
            rw [hpp1]
            exact h0
          by_cases hp0 : p.path = []
          · exact Or.inl hp0
          right
          apply take_one_of_headD hp0
          rw [hpp1, hh]
          cases hsps : s.path with
          | nil => rw [hsps] at hsp1; simp at hsp1
          | cons c t =>
            rw [hsps] at hsp1
            have hc : c = '/' := by simpa using hsp1
            rw [hc]
            rfl
      · rw [hpp1]
        exact hpathhead
    · have hU2 : U = p.path ++ ';' :: p.params := by rw [hU]; simp [hpar]
      rcases hbr with ⟨hcondT, hpp1, hpp2⟩ | ⟨_, _, hpp2⟩
      swap
      · exact absurd hpp2 hpar
      rw [Bool.and_eq_true] at hcondT
      have hrecomb := splitParams_recomb hcondT.2 (by rw [← hpp2]; exact hpar)
      rw [hU2, hpp1, hpp2, hrecomb]
      exact hpathhead
  have hUm : ∀ c ∈ U, c ≠ '#' ∧ c ≠ '?' := by
    intro c hc
    rw [hU] at hc
    split at hc
    · rcases List.mem_append.mp hc with hc | hc
      · exact hpam c hc
      · rcases List.mem_cons.mp hc with rfl | hc
        · exact ⟨by decide, by decide⟩
        · exact hprm c hc
    · exact hpam c hc
  have hUu : ∀ c ∈ p.netloc ++ U ++ p.fragment, isUnsafeUrlByte c = false := by
    intro c hc
    rcases List.mem_append.mp hc with hc | hc
    · rcases List.mem_append.mp hc with hc | hc
      · apply hunul
        rw [← hnle] at hc
        simp [hc]
      · rcases hUsub c hc with rfl | hc2
        · decide
        · apply hunul
          simp [hc2]
    · apply hunul
      rw [← hfe] at hc
      simp [hc]
  have hsplit_out : pyUrlsplit (pyUrlunsplit p.scheme p.netloc U q' p.fragment)
      = some ⟨p.scheme, p.netloc, U, q', p.fragment⟩ := by
    apply pyUrlsplit_output
    · rw [← hsc]
      exact hshape
    · exact hnl
    · intro c hc
      rw [← hnle] at hc
      exact hnld c hc
    · rw [← hnle]
      exact hbrk
    · exact hwhole
    · exact hUm
    · exact hqh
    · exact hqu
    · exact hUu
  have hrw : pyUrlunparse p.scheme p.netloc p.path p.params q' p.fragment
      = pyUrlunsplit p.scheme p.netloc U q' p.fragment := by
    rw [hU]
    rfl
  rw [hrw]
  unfold pyUrlparse
  rw [hsplit_out]
  simp only
  by_cases hpar : p.params = []
  · have hU2 : U = p.path := by rw [hU]; simp [hpar]
    by_cases hc2 : (usesParams.any (fun x => x = p.scheme)
        && p.path.any (fun c => c = ';')) = true
    · rcases hbr with ⟨hcondT, hpp1, hpp2⟩ | ⟨hcondF, hpp1, _⟩
      · rw [Bool.and_eq_true] at hcondT
        have hprops := splitParams_props hcondT.2
        have hclean : (p.path.reverse.takeWhile (fun c => c ≠ '/')).any
            (fun c => c = ';') = false := by
          rw [hpp1]
          exact hprops.1
        rw [Bool.and_eq_true] at hc2
        have hsp2 := splitParams_of_clean_tail hclean hc2.2
        rw [hU2]
        rw [if_pos (by rw [Bool.and_eq_true]; exact hc2)]
        rw [hsp2]
        rw [hpar]
      · exfalso
        rw [← hsc, hpp1] at hc2
        rw [hcondF] at hc2
        exact absurd hc2 (by simp)
    · rw [hU2]
      rw [if_neg hc2]
      rw [hpar]
  · have hU2 : U = p.path ++ ';' :: p.params := by rw [hU]; simp [hpar]
    rcases hbr with ⟨hcondT, hpp1, hpp2⟩ | ⟨_, _, hpp2⟩
    swap
    · exact absurd hpp2 hpar
    rw [Bool.and_eq_true] at hcondT
    have hprops := splitParams_props hcondT.2
    have hins := splitParams_insert p.path p.params
      (by rw [hpp1]; exact hprops.1) (by rw [hpp2]; exact hprops.2)
    rw [hU2]
    rw [if_pos ?hcnd]
    case hcnd =>
      rw [Bool.and_eq_true]
      refine ⟨by rw [← hsc]; exact hcondT.1, ?_⟩
      exact List.any_eq_true.mpr ⟨';', by simp, by simp⟩
    rw [hins]

theorem lookupKey_mCleanup_clean (m : List (Str × List Str)) (k : Str)
    (h : ∀ kv ∈ m, kv.1 = k → kv.2 ≠ [] ∧ ∀ w ∈ kv.2, w ≠ []) :
    lookupKey (mCleanup m) k = lookupKey m k := by
  induction m with
  | nil => rfl
  | cons kv rest ih =>
    have htail := ih (fun q hq hqk => h q (List.mem_cons_of_mem _ hq) hqk)
    unfold mCleanup
    rw [List.filterMap_cons]
    by_cases hk : kv.1 = k
    · obtain ⟨hne, hcl⟩ := h kv (by simp) hk
      have hfil : kv.2.filter (fun v => v ≠ []) = kv.2 :=
        List.filter_eq_self.mpr (fun w hw => by simp [hcl w hw])
      simp only [hfil]
      rw [if_neg hne]
      simp only
      simp [lookupKey, hk]
    · split
      · unfold mCleanup at htail
        rw [htail]
        simp [lookupKey, hk]
      next b hb =>
        have hb1 : b = (kv.1, kv.2.filter (fun v => v ≠ [])) := by
          split at hb
          · exact absurd hb (by simp)
          · rw [Option.some.injEq] at hb
            exact hb.symm
        subst hb1
        unfold mCleanup at htail
        simp only [lookupKey]
        rw [if_neg hk, if_neg hk]
        exact htail

theorem redact_of_parse {u : Str} {q : ParseResult} (ps : List Str) (tok : Str)
    (h : pyUrlparse u = some q) : redact_url_parameters u ps tok = redactSuccess q ps tok := by
  unfold redact_url_parameters
  rw [h]

/-- C4 (corrected: restricted to URLs whose authority is nonempty).  For a
URL that parses with a nonempty netloc, the redacted output re-parses with
the scheme, authority, path, params and fragment all preserved exactly and
the query replaced by the re-encoding of the redacted mapping; and every
query parameter whose name is not in the Parameter Set keeps its parsed
value sequence unchanged.  Without the netloc restriction the claim fails:
`urlunparse` inserts path separators for netloc-less URLs of a
netloc-using scheme (see the counterexample, where path `foo` turns into
`/foo`). -/
theorem redact_frame_preserved (url : Str) (ps : List Str) (tok : Str) (p : ParseResult)
    (hp : pyUrlparse url = some p) (hnl : p.netloc ≠ []) :
    pyUrlparse (redact_url_parameters url ps tok)
      = some ⟨p.scheme, p.netloc, p.path, p.params,
          pyUrlencode (redactQueryParams (pyParseQs p.query) ps tok), p.fragment⟩ ∧
    (∀ k, ps.any (fun x => x = k) = false →
      lookupKey (pyParseQs (textQuery (redact_url_parameters url ps tok))) k
        = lookupKey (pyParseQs p.query) k) := by
  have hqall := pyUrlencode_all (redactQueryParams (pyParseQs p.query) ps tok)
  constructor
  · rw [redact_of_parse ps tok hp]
    unfold redactSuccess
    apply pyUrlparse_output hp hnl
    · intro c hc
      exact ne_of_class (List.all_eq_true.mp hqall c hc) (by decide)
    · intro c hc
      exact not_unsafe_of_class (List.all_eq_true.mp hqall c hc)
        (by decide) (by decide) (by decide)
  · intro k hk
    rw [textQuery_redact ps tok hp]
    have hnd : (keysOf (redactQueryParams (pyParseQs p.query) ps tok)).Nodup := by
      rw [keysOf_redact]
      exact (pyParseQs_inv p.query).1
    rw [pyParseQs_urlencode hnd]
    have hclean : ∀ kv ∈ redactQueryParams (pyParseQs p.query) ps tok, kv.1 = k →
        kv.2 ≠ [] ∧ ∀ w ∈ kv.2, w ≠ [] := by
      intro kv hkv hkk
      rw [redactQueryParams_eq_map, List.mem_map] at hkv
      obtain ⟨kv0, hkv0, rfl⟩ := hkv
      have hkey : (if ps.any (fun x => x = kv0.1) then ((kv0.1 : Str), [tok]) else kv0).1
          = kv0.1 := by split <;> rfl
      rw [hkey] at hkk
      have hcond : ps.any (fun x => x = kv0.1) = false := by
        rw [hkk]
        exact hk
      have hite : (if ps.any (fun x => x = kv0.1) then ((kv0.1 : Str), [tok]) else kv0)
          = kv0 := if_neg (by simp [hcond])
      rw [hite]
      exact (pyParseQs_inv p.query).2 kv0 hkv0
    rw [lookupKey_mCleanup_clean _ k hclean, lookupKey_redact, if_neg (by simp [hk])]

theorem redact_frame_preserved_witness :
    pyUrlparse (redact_url_parameters ("http://h/p?api_key=s&b=2").toList
        [("api_key").toList] ("X").toList)
      = some ⟨("http").toList, ("h").toList, ("/p").toList, [],
          pyUrlencode (redactQueryParams (pyParseQs ("api_key=s&b=2").toList)
            [("api_key").toList] ("X").toList), []⟩ ∧
    (∀ k, [("api_key").toList].any (fun x => x = k) = false →
      lookupKey (pyParseQs (textQuery (redact_url_parameters ("http://h/p?api_key=s&b=2").toList
          [("api_key").toList] ("X").toList))) k
        = lookupKey (pyParseQs ("api_key=s&b=2").toList) k) :=
  redact_frame_preserved _ _ _
    ⟨("http").toList, ("h").toList, ("/p").toList, [], ("api_key=s&b=2").toList, []⟩
    (by decide) (by decide)

/-- C4 counterexample: for a successfully parsed URL with an empty
authority, the frame is not preserved — redacting `http:foo?a=1` (a URL
whose scheme uses a netloc) rebuilds it as `http:///foo?a=1`, whose path
re-parses as `/foo` instead of the original `foo`. -/
theorem redact_frame_counterexample :
    pyUrlparse ("http:foo?a=1").toList
      = some ⟨("http").toList, [], ("foo").toList, [], ("a=1").toList, []⟩ ∧
    pyUrlparse (redact_url_parameters ("http:foo?a=1").toList [] ("X").toList)
      = some ⟨("http").toList, [], ("/foo").toList, [], ("a=1").toList, []⟩ ∧
    ("foo").toList ≠ ("/foo").toList := by
  refine ⟨?_, ?_, ?_⟩
  · decide
  · decide
  · decide

/-- C3 (corrected: idempotence holds for a nonempty token when the URL
either fails to parse or parses with a nonempty authority).  On the
parse-failure side both applications return the input; on the
nonempty-netloc side the first output re-parses to exactly the same
components with the re-encoded query, re-parsing that query yields the
redacted mapping unchanged, and redacting an already-redacted mapping is
the identity.  The unrestricted claim is false (see the counterexample):
the empty token makes the redacted pair vanish on the second pass, and a
parseable URL with an empty authority is rebuilt with a different path. -/
theorem redact_idempotent_amended (url : Str) (ps : List Str) (tok : Str)
    (htok : tok ≠ [])
    (hcase : pyUrlparse url = none ∨ ∃ p, pyUrlparse url = some p ∧ p.netloc ≠ []) :
    redact_url_parameters (redact_url_parameters url ps tok) ps tok
      = redact_url_parameters url ps tok := by
  rcases hcase with hnone | ⟨p, hp, hnl⟩
  · have hid : redact_url_parameters url ps tok = url := by
      unfold redact_url_parameters
      rw [hnone]
    rw [hid, hid]
  · have hqall := pyUrlencode_all (redactQueryParams (pyParseQs p.query) ps tok)
    have hreparse : pyUrlparse (redact_url_parameters url ps tok)
        = some ⟨p.scheme, p.netloc, p.path, p.params,
            pyUrlencode (redactQueryParams (pyParseQs p.query) ps tok), p.fragment⟩ := by
      rw [redact_of_parse ps tok hp]
      unfold redactSuccess
      apply pyUrlparse_output hp hnl
      · intro c hc
        exact ne_of_class (List.all_eq_true.mp hqall c hc) (by decide)
      · intro c hc
        exact not_unsafe_of_class (List.all_eq_true.mp hqall c hc)
          (by decide) (by decide) (by decide)
    rw [redact_of_parse ps tok hreparse]
    unfold redactSuccess
    simp only
    have hnd : (keysOf (redactQueryParams (pyParseQs p.query) ps tok)).Nodup := by
      rw [keysOf_redact]
      exact (pyParseQs_inv p.query).1
    have hvals : ∀ kv ∈ redactQueryParams (pyParseQs p.query) ps tok,
        kv.2 ≠ [] ∧ ∀ w ∈ kv.2, w ≠ [] :=
      redact_values ps (pyParseQs_inv p.query).2 htok
    have hqq : pyParseQs (pyUrlencode (redactQueryParams (pyParseQs p.query) ps tok))
        = redactQueryParams (pyParseQs p.query) ps tok := by
      rw [pyParseQs_urlencode hnd]
      exact mCleanup_eq_self hvals
    rw [hqq]
    have hstable : redactQueryParams (redactQueryParams (pyParseQs p.query) ps tok) ps tok
        = redactQueryParams (pyParseQs p.query) ps tok := by
      rw [redactQueryParams_eq_map, redactQueryParams_eq_map, List.map_map]
      apply List.map_congr_left
      intro kv _
      simp only [Function.comp]
      by_cases hcnd : ps.any (fun x => x = kv.1) = true
      · have hite : (if ps.any (fun x => x = kv.1) then ((kv.1 : Str), [tok]) else kv)
            = (kv.1, [tok]) := if_pos hcnd
        simp only [hite]
        rw [ite_self]
      · have hite : (if ps.any (fun x => x = kv.1) then ((kv.1 : Str), [tok]) else kv)
            = kv := if_neg hcnd
        simp only [hite]
    rw [hstable, redact_of_parse ps tok hp]
    rfl

theorem redact_idempotent_amended_witness :
    redact_url_parameters (redact_url_parameters ("http://h/p?api_key=s&b=2").toList
        [("api_key").toList] ("X").toList) [("api_key").toList] ("X").toList
      = redact_url_parameters ("http://h/p?api_key=s&b=2").toList
          [("api_key").toList] ("X").toList :=
  redact_idempotent_amended _ _ _ (by decide)
    (Or.inr ⟨⟨("http").toList, ("h").toList, ("/p").toList, [],
      ("api_key=s&b=2").toList, []⟩, by decide, by decide⟩)
